import Mathlib

/-!
Verification development for the NoteBook-LLM retrieval core
(`backend/rag/`): shallow embedding of the vector store
(`vector_store.py`), semantic chunker (`chunking_service.py`), context
assembler (`context_assembler.py`), session memory (`session_memory.py`)
and the store-relevant part of the orchestrator (`rag_service.py`),
together with theorems settling the frozen claims.

Modelling conventions:
- Python `str` values are modelled as `List Char`; Python `len` counts
  code points, matching `List.length` on `Char` lists.
- Python floats are modelled as `ℚ` (similarity scores, the `1.1` table
  slack, the `0.15` overlap fraction).  The claims under study are about
  control flow and integer token counts, where the rational model and
  IEEE doubles agree on every comparison the theorems exercise.
- Python dicts are modelled as insertion-ordered association lists
  (`List (Int × α)`): assignment updates in place or appends, matching
  CPython's order guarantee.
- `numpy` arrays of embeddings are `List (List ℚ)`; the FAISS
  `IndexFlatIP` is its stored-vector matrix, `None` vs created index is
  an `Option`.
-/

/-! ### Python string and dict primitives -/

/-- Python's ASCII whitespace class (`\s` for the patterns in this repo,
`str.strip`, `str.split`). -/
def isPyWS (c : Char) : Bool :=
  c = ' ' || c = '\t' || c = '\n' || c = '\r' || c = '\x0b' || c = '\x0c'

/-- `str.strip()`: drop whitespace from both ends. -/
def pyStrip (s : List Char) : List Char :=
  ((s.dropWhile isPyWS).reverse.dropWhile isPyWS).reverse

/-- `str.lower()` (ASCII case folding; the inputs in this development are
ASCII). -/
def pyLower (s : List Char) : List Char :=
  s.map Char.toLower

/-- Accumulator form of `str.split()`: `cur` is the reversed word being
scanned. -/
def pySplitWSAux : List Char → List Char → List (List Char)
  | [], cur => if cur = [] then [] else [cur.reverse]
  | c :: rest, cur =>
    if isPyWS c then
      if cur = [] then pySplitWSAux rest []
      else cur.reverse :: pySplitWSAux rest []
    else pySplitWSAux rest (c :: cur)

/-- `str.split()` with no argument: split on whitespace runs, dropping
empty pieces. -/
def pySplitWS (s : List Char) : List (List Char) :=
  pySplitWSAux s []

/-- Whether `pat` occurs at the head of `s`. -/
def listStartsWith [DecidableEq α] (s pat : List α) : Bool :=
  pat.isPrefixOf s

/-- `str.find(sub)`: index of the first occurrence, `-1` when absent
(Python returns `0` for the empty needle). -/
def pyFind (s sub : List Char) : Int :=
  match s with
  | [] => if sub = [] then 0 else -1
  | _ :: rest =>
    if listStartsWith s sub then 0
    else
      let r := pyFind rest sub
      if r < 0 then -1 else r + 1

/-- Fuel-driven loop of `str.replace` (each step consumes at least one
character, so `fuel = s.length` never runs out). -/
def pyReplaceGo (old new : List Char) : Nat → List Char → List Char
  | 0, s => s
  | _ + 1, [] => []
  | fuel + 1, c :: rest =>
    if old ≠ [] ∧ listStartsWith (c :: rest) old then
      new ++ pyReplaceGo old new fuel ((c :: rest).drop old.length)
    else
      c :: pyReplaceGo old new fuel rest

/-- `str.replace(old, new)`: replace all non-overlapping occurrences,
left to right.  (All uses in the repo have a nonempty `old`.) -/
def pyReplace (s old new : List Char) : List Char :=
  pyReplaceGo old new s.length s

/-- Python dict lookup `d.get(k)` on an insertion-ordered assoc list. -/
def pyDictGet {α : Type} (d : List (Int × α)) (k : Int) : Option α :=
  match d.find? (fun p => p.1 = k) with
  | some p => some p.2
  | none => none

/-- Python dict assignment `d[k] = v`: update in place when the key
exists (keeping its position), else append. -/
def pyDictInsert {α : Type} : List (Int × α) → Int → α → List (Int × α)
  | [], k, v => [(k, v)]
  | p :: rest, k, v =>
    if p.1 = k then (k, v) :: rest else p :: pyDictInsert rest k v

/-- `xs[-n:]`: the last `n` elements. -/
def takeLast {α : Type} (n : Nat) (xs : List α) : List α :=
  xs.drop (xs.length - n)

/-- `list(set(xs))` modelled as first-occurrence deduplication.
CPython's set iteration order is implementation-defined (hash order);
every theorem that depends on this definition is stated so that it holds
for any enumeration order (membership and cardinality facts only). -/
def pySetList [DecidableEq α] : List α → List α
  | [] => []
  | x :: rest =>
    if x ∈ rest then pySetList rest
    else x :: pySetList rest

/-- Stable insertion into a `lt`-sorted list: the new element goes after
existing elements it does not strictly precede. -/
def stableInsert {α : Type} (lt : α → α → Bool) (x : α) : List α → List α
  | [] => [x]
  | y :: ys => if lt x y then x :: y :: ys else y :: stableInsert lt x ys

/-- Stable sort (models CPython's stable `sorted`): elements are folded
in input order, each inserted after its equals. -/
def stableSort {α : Type} (lt : α → α → Bool) (xs : List α) : List α :=
  xs.foldl (fun acc x => stableInsert lt x acc) []

/-! ### Tokenizer (`SemanticChunker._count_tokens`,
`ContextAssembler._count_tokens`)

Both methods try `tiktoken` and fall back to `len(text) // 4` on
`ImportError`.  The exact BPE backend is an external library; the
fallback is the deterministic in-repo path and is what this development
embeds. -/

namespace SemanticChunker

/-- `SemanticChunker._count_tokens`, fallback branch:
`len(text) // 4`. -/
def countTokens (s : List Char) : Nat :=
  s.length / 4

end SemanticChunker

namespace ContextAssembler

/-- `ContextAssembler._count_tokens`, fallback branch (`ImportError`):
`len(text) // 4`. -/
def countTokens (s : List Char) : Nat :=
  s.length / 4

end ContextAssembler

/-! ### Vector store (`vector_store.py`) -/

/-- `ChunkMetadata` dataclass (`vector_store.py`). -/
structure ChunkMetadata where
  doc_id : Int
  chunk_id : Int
  chunk_index : Int
  page_number : Option Int
  chunk_type : List Char
  section_title : Option (List Char)
  token_count : Int
deriving DecidableEq, Repr

/-- `SearchResult` dataclass (`vector_store.py`). -/
structure SearchResult where
  chunk_id : Int
  doc_id : Int
  score : ℚ
  text : List Char
  metadata : ChunkMetadata
deriving DecidableEq, Repr

/-- `FAISSVectorStore` state: the FAISS index is modelled by its stored
vector matrix (`none` = `_index is None`), dicts by insertion-ordered
assoc lists. -/
structure FAISSVectorStore where
  dimension : Nat
  index : Option (List (List ℚ))
  metadata : List (Int × ChunkMetadata)
  texts : List (Int × List Char)
  id_map : List Int
  next_id : Int
deriving DecidableEq, Repr

/-- `self._index.ntotal`, with `0` when `_index is None` (the two cases
the code always checks together). -/
def FAISSVectorStore.ntotal (s : FAISSVectorStore) : Nat :=
  (s.index.getD []).length

/-- The stored vector matrix (empty when no index was created). -/
def FAISSVectorStore.vecs (s : FAISSVectorStore) : List (List ℚ) :=
  s.index.getD []

/-- A fresh `FAISSVectorStore(persist_dir, dimension)` before
`_load_if_exists` finds anything on disk. -/
def emptyStore (dim : Nat) : FAISSVectorStore :=
  ⟨dim, none, [], [], [], 0⟩

/-- The id-assignment loop of `FAISSVectorStore.add` (lines 199-208):
`chunk_id = meta.chunk_id if meta.chunk_id else self._next_id` (Python
truthiness: a stored `0` counts as unset), then
`next_id = max(next_id, chunk_id + 1)`, appending to `chunk_ids`,
`_id_map`, `_metadata`, `_texts`. -/
def addAssign :
    List (ChunkMetadata × List Char) →
    List (Int × ChunkMetadata) → List (Int × List Char) → List Int → Int → List Int →
    List (Int × ChunkMetadata) × List (Int × List Char) × List Int × Int × List Int
  | [], md, tx, im, nid, ids => (md, tx, im, nid, ids)
  | (m, t) :: rest, md, tx, im, nid, ids =>
    let cid := if m.chunk_id ≠ 0 then m.chunk_id else nid
    let nid' := max nid (cid + 1)
    addAssign rest (pyDictInsert md cid m) (pyDictInsert tx cid t)
      (im ++ [cid]) nid' (ids ++ [cid])

/-- The mutation phase of `add` after all checks: assign ids, then
append the embeddings to the (created-on-demand) index. -/
def addCore (s : FAISSVectorStore) (embeddings : List (List ℚ))
    (texts : List (List Char)) (metadatas : List ChunkMetadata) :
    FAISSVectorStore × Except String (List Int) :=
  let r := addAssign (metadatas.zip texts) s.metadata s.texts s.id_map s.next_id []
  ({ s with
      metadata := r.1
      texts := r.2.1
      id_map := r.2.2.1
      next_id := r.2.2.2.1
      index := some (s.vecs ++ embeddings) },
   .ok r.2.2.2.2)

/-- `FAISSVectorStore.add` (lines 163-215).  `embeddings.shape[1]` of a
rectangular numpy array is the common row length, taken from the first
row.  A failed check raises before any mutation of `self`, so the error
cases return the store unchanged. -/
def FAISSVectorStore.add (s : FAISSVectorStore) (embeddings : List (List ℚ))
    (texts : List (List Char)) (metadatas : List ChunkMetadata) :
    FAISSVectorStore × Except String (List Int) :=
  if embeddings.length = 0 then (s, .ok [])
  else if embeddings.length ≠ texts.length ∨ embeddings.length ≠ metadatas.length then
    (s, .error "embeddings, texts, and metadatas must have same length")
  else
    let dim1 := (embeddings.headD []).length
    if dim1 ≠ s.dimension then
      if s.ntotal = 0 then
        addCore { s with dimension := dim1 } embeddings texts metadatas
      else
        (s, .error "Embedding dimension != index dimension")
    else
      addCore s embeddings texts metadatas

/-- Multiplication of exact rationals, written out on numerators and
denominators so that the kernel can evaluate it (Batteries marks
`Rat.mul` irreducible); equal to `a * b` (`qMul_eq`). -/
def qMul (a b : ℚ) : ℚ :=
  mkRat (a.num * b.num) (a.den * b.den)

/-- Addition of exact rationals, kernel-evaluable; equal to `a + b`
(`qAdd_eq`). -/
def qAdd (a b : ℚ) : ℚ :=
  mkRat (a.num * (b.den : Int) + b.num * (a.den : Int)) (a.den * b.den)

/-- Inner product of a query with one stored vector (FAISS
`IndexFlatIP` score; vectors have the index dimension). -/
def dotQ (q v : List ℚ) : ℚ :=
  (List.zipWith qMul q v).foldl qAdd 0

/-- `IndexFlatIP.search(query, k)`: score every stored vector, return
the top `k` as `(slot, score)` sorted by descending score, ties broken
by smaller slot (stable sort over ascending slots). -/
def faissTopPairs (vecs : List (List ℚ)) (q : List ℚ) (k : Nat) : List (Nat × ℚ) :=
  (stableSort (fun a b => decide (b.2 < a.2)) ((vecs.map (dotQ q)).enum)).take k

/-- A placeholder metadata value for total lookups in the spec-side
search description (never observed under the well-formedness hypotheses
of the theorems). -/
def dummyMeta : ChunkMetadata :=
  ⟨0, 0, 0, none, [], none, 0⟩

/-- The result-collection loop of `search` (lines 251-278): skip
out-of-range slots and missing metadata, apply the `min_score` and
`doc_ids` filters (an empty `doc_ids` list is falsy, hence no filter),
and stop as soon as `k` results have been collected.  (FAISS pads with
slot `-1` only when asked for more results than it holds; the `min`
in `search` prevents that, so slots here are naturals and the
`idx < 0` half of the code's guard is vacuous.) -/
def searchGo (s : FAISSVectorStore) (k : Nat) (docIds : List Int) (minScore : ℚ) :
    List (Nat × ℚ) → List SearchResult → List SearchResult
  | [], acc => acc.reverse
  | (idx, score) :: rest, acc =>
    if idx < s.id_map.length then
      let cid := s.id_map.getD idx 0
      match pyDictGet s.metadata cid with
      | none => searchGo s k docIds minScore rest acc
      | some md =>
        if score < minScore then searchGo s k docIds minScore rest acc
        else if docIds ≠ [] ∧ md.doc_id ∉ docIds then searchGo s k docIds minScore rest acc
        else
          let acc' := SearchResult.mk cid md.doc_id score ((pyDictGet s.texts cid).getD []) md :: acc
          if k ≤ acc'.length then acc'.reverse else searchGo s k docIds minScore rest acc'
    else searchGo s k docIds minScore rest acc

/-- `FAISSVectorStore.search` (lines 217-280).  `search_k = k * 3 if
doc_ids else k` (truthiness: `None` and `[]` both mean no filter),
capped at `ntotal`. -/
def FAISSVectorStore.search (s : FAISSVectorStore) (q : List ℚ) (k : Nat)
    (docIds : Option (List Int)) (minScore : ℚ) : List SearchResult :=
  if s.ntotal = 0 then []
  else
    let dl := docIds.getD []
    let searchK := min (if dl ≠ [] then k * 3 else k) s.ntotal
    searchGo s k dl minScore (faissTopPairs s.vecs q searchK) []

/-- The `{chunk_id, doc_id, score, text, metadata}` record the spec says
`search` returns for a candidate slot. -/
def specResult (s : FAISSVectorStore) (p : Nat × ℚ) : SearchResult :=
  let cid := s.id_map.getD p.1 0
  let md := (pyDictGet s.metadata cid).getD dummyMeta
  SearchResult.mk cid md.doc_id p.2 ((pyDictGet s.texts cid).getD []) md

/-- The spec's wording of search, stated independently of the loop in
the code, for the refinement comparison: "Compute scores for the query
against every stored vector, pick the top K′ by score where K′ = 3K if
a document filter is supplied else K, then filter by doc_filter and
min_score, then truncate to K. Ties are broken by smaller slot index." -/
def FAISSVectorStore.searchPerSpec (s : FAISSVectorStore) (q : List ℚ) (k : Nat)
    (docIds : Option (List Int)) (minScore : ℚ) : List SearchResult :=
  let dl := docIds.getD []
  let kp := if dl ≠ [] then 3 * k else k
  (((faissTopPairs s.vecs q kp).map (specResult s)).filter
      (fun r => decide (minScore ≤ r.score) && (dl.isEmpty || decide (r.doc_id ∈ dl)))).take k

/-- One step of `_rebuild_index` (lines 316-323): keep the slot when its
`chunk_id` is in `keep_ids`, copying vector, text and metadata.  (Where
Python would copy a *missing* metadata entry as a stored `None`, the
model omits the entry; under the well-formedness hypotheses of the
theorems every kept id has metadata, so the case never arises.) -/
def rebuildStep (s : FAISSVectorStore) (keepIds : List Int)
    (acc : List (List ℚ) × List (Int × List Char) × List (Int × ChunkMetadata) × List Int)
    (p : Int × List ℚ) :
    List (List ℚ) × List (Int × List Char) × List (Int × ChunkMetadata) × List Int :=
  if p.1 ∈ keepIds then
    (acc.1 ++ [p.2],
     pyDictInsert acc.2.1 p.1 ((pyDictGet s.texts p.1).getD []),
     (match pyDictGet s.metadata p.1 with
      | some m => pyDictInsert acc.2.2.1 p.1 m
      | none => acc.2.2.1),
     acc.2.2.2 ++ [p.1])
  else acc

/-- `FAISSVectorStore._rebuild_index` (lines 304-334): iterate
`enumerate(self._id_map)` (modelled by zipping `id_map` with the stored
vectors; `reconstruct(i)` requires `i < ntotal`), then install a fresh
index holding the kept vectors. -/
def rebuildIndex (s : FAISSVectorStore) (keepIds : List Int) : FAISSVectorStore :=
  let r := (s.id_map.zip s.vecs).foldl (rebuildStep s keepIds)
    (([] : List (List ℚ)), ([] : List (Int × List Char)),
     ([] : List (Int × ChunkMetadata)), ([] : List Int))
  { s with
      index := some r.1
      texts := r.2.1
      metadata := r.2.2.1
      id_map := r.2.2.2 }

/-- `FAISSVectorStore.delete_by_doc_id` (lines 282-302). -/
def FAISSVectorStore.deleteByDocId (s : FAISSVectorStore) (docId : Int) : FAISSVectorStore :=
  if s.ntotal = 0 then s
  else
    let keepIds := (s.metadata.filter (fun p => p.2.doc_id ≠ docId)).map (·.1)
    if keepIds.length = s.metadata.length then s
    else rebuildIndex s keepIds

/-- `FAISSVectorStore.get_doc_chunk_count`. -/
def FAISSVectorStore.getDocChunkCount (s : FAISSVectorStore) (docId : Int) : Nat :=
  (s.metadata.filter (fun p => p.2.doc_id = docId)).length

/-- `FAISSVectorStore.get_total_count` (= the spec's `count()`). -/
def FAISSVectorStore.getTotalCount (s : FAISSVectorStore) : Nat :=
  s.ntotal

/-- The persisted pair `faiss.index` + `metadata.pkl` written by
`save` as one record; the disk is `Option StoreDisk` (`none` = files
absent). -/
structure StoreDisk where
  index : List (List ℚ)
  metadata : List (Int × ChunkMetadata)
  texts : List (Int × List Char)
  id_map : List Int
  next_id : Int
  dimension : Nat
deriving DecidableEq, Repr

/-- `FAISSVectorStore.save` (lines 134-161): return without writing when
`_index is None or _index.ntotal == 0`; otherwise overwrite both files
with the current state.  (The `except` clause only swallows I/O errors,
which the model does not produce.) -/
def FAISSVectorStore.save (s : FAISSVectorStore) (disk : Option StoreDisk) :
    Option StoreDisk :=
  if s.ntotal = 0 then disk
  else some ⟨s.vecs, s.metadata, s.texts, s.id_map, s.next_id, s.dimension⟩

/-- A fresh `FAISSVectorStore(persist_dir, dimension)` reading the same
persist directory: `__init__` defaults followed by `_load_if_exists`
(lines 109-132), which restores every field from the persisted record
when both files exist. -/
def freshLoad (disk : Option StoreDisk) (dim : Nat) : FAISSVectorStore :=
  match disk with
  | none => emptyStore dim
  | some d => ⟨d.dimension, some d.index, d.metadata, d.texts, d.id_map, d.next_id⟩

/-! ### Context assembler (`context_assembler.py`) -/

/-- A retrieved-chunk dict as the assembler reads it: exactly the keys
its helpers access.  `Option` fields use `none` for a missing key; for
`page_number`, `chunk_id`, `chunk_type` and `section_title` a present
`None` value behaves identically to a missing key at every access, so
the two are merged.  For `doc_id` and `doc_title` a present `None`
would differ from a missing key (`get(k, default)` only applies the
default when the key is absent; a `None` `doc_id` would even make
`sorted` raise) - but the dicts reaching the assembler come from
`RAGService.retrieve`, which always sets both to non-`None` values, so
`none` here models the missing-key case.  `text` is always read as
`get('text', '')`, so it is a plain field with `''` for a missing
key. -/
structure PyChunk where
  text : List Char
  doc_id : Option Int
  doc_title : Option (List Char)
  page_number : Option Int
  chunk_index : Option Int
  chunk_id : Option Int
  chunk_type : Option (List Char)
  section_title : Option (List Char)
deriving DecidableEq, Repr

/-- `re.sub(r'\s+', ' ', s)`: each maximal whitespace run becomes one
space (`prev` records whether the previous character was whitespace). -/
def wsCollapseAux : List Char → Bool → List Char
  | [], _ => []
  | c :: rest, prev =>
    if isPyWS c then
      if prev then wsCollapseAux rest true
      else ' ' :: wsCollapseAux rest true
    else c :: wsCollapseAux rest false

/-- Whitespace collapse, starting outside a run. -/
def wsCollapse (s : List Char) : List Char :=
  wsCollapseAux s false

namespace ContextAssembler

/-- `_compute_text_hash`: `re.sub(r'\s+', ' ', text.lower().strip())`,
then the first 100 characters. -/
def computeTextHash (text : List Char) : List Char :=
  (wsCollapse (pyStrip (pyLower text))).take 100

/-- `_calculate_overlap`: Jaccard index of the lowercase word sets
(`len` of a Python set = number of distinct elements). -/
def calcOverlap (t1 t2 : List Char) : ℚ :=
  let w1 := (pySplitWS (pyLower t1)).dedup
  let w2 := (pySplitWS (pyLower t2)).dedup
  if w1 = [] ∨ w2 = [] then 0
  else
    let inter := (w1.filter (fun w => w ∈ w2)).length
    let uni := (w1 ++ w2.filter (fun w => w ∉ w1)).length
    if 0 < uni then mkRat (inter : Int) uni else 0

/-- The loop of `_deduplicate_chunks` (`overlap_threshold = 0.7`):
`seen` is the fingerprint set (membership only, so list order is
irrelevant), `uniq` the kept chunks in order; the pairwise scan's early
`break` is equivalent to `any`. -/
def dedupGo (seen : List (List Char)) (uniq : List PyChunk) :
    List PyChunk → List PyChunk
  | [] => uniq
  | c :: rest =>
    let h := computeTextHash c.text
    if h ∈ seen then dedupGo seen uniq rest
    else if uniq.any (fun e => decide (mkRat 7 10 ≤ calcOverlap c.text e.text)) then
      dedupGo seen uniq rest
    else dedupGo (seen ++ [h]) (uniq ++ [c]) rest

/-- `_deduplicate_chunks` (the `if not chunks` guard is subsumed by the
empty loop). -/
def dedupChunks (chunks : List PyChunk) : List PyChunk :=
  dedupGo [] [] chunks

/-- The sort key of `_sort_chunks`:
`(c.get('doc_id', 0), c.get('page_number', 0) or 0, c.get('chunk_index', 0))`. -/
def sortKey (c : PyChunk) : Int × Int × Int :=
  (c.doc_id.getD 0, c.page_number.getD 0, c.chunk_index.getD 0)

/-- Strict lexicographic order on the sort keys (Python tuple `<`). -/
def keyLt (a b : Int × Int × Int) : Bool :=
  decide (a.1 < b.1 ∨ (a.1 = b.1 ∧
    (a.2.1 < b.2.1 ∨ (a.2.1 = b.2.1 ∧ a.2.2 < b.2.2))))

/-- `_sort_chunks`: Python's stable `sorted` by the key tuple. -/
def sortChunks (chunks : List PyChunk) : List PyChunk :=
  stableSort (fun a b => keyLt (sortKey a) (sortKey b)) chunks

/-- Join a list of strings with a separator (`sep.join(parts)`). -/
def joinSep (sep : List Char) : List (List Char) → List Char
  | [] => []
  | [x] => x
  | x :: rest => x ++ sep ++ joinSep sep rest

/-- `_format_chunk`: header parts joined by `" | "`, then a newline and
the chunk text.  Truthiness: an empty `doc_title`, a zero/absent page,
an empty/absent section are omitted. -/
def formatChunk (c : PyChunk) (index : Nat) : List Char :=
  let docTitle := c.doc_title.getD
    (("Document ".data) ++ (match c.doc_id with
      | some d => (toString d).data
      | none => "?".data))
  let parts₀ := [("[Source ".data ++ (toString index).data ++ "]".data)]
  let parts₁ := if docTitle ≠ [] then parts₀ ++ [("From: ".data ++ docTitle)] else parts₀
  let parts₂ := match c.page_number with
    | some p => if p ≠ 0 then parts₁ ++ [("Page ".data ++ (toString p).data)] else parts₁
    | none => parts₁
  let parts₃ := match c.section_title with
    | some st => if st ≠ [] then parts₂ ++ [("Section: ".data ++ st)] else parts₂
    | none => parts₂
  joinSep " | ".data parts₃ ++ "\n".data ++ c.text

/-- One citation record of `_build_citations`. -/
structure Citation where
  index : Nat
  doc_id : Option Int
  doc_title : Option (List Char)
  chunk_id : Option Int
  page_number : Option Int
  section_title : Option (List Char)
  preview : List Char
deriving DecidableEq, Repr

/-- `_build_citations`, numbering from 1. -/
def buildCitations (chunks : List PyChunk) : List Citation :=
  chunks.enum.map (fun p =>
    { index := p.1 + 1
      doc_id := p.2.doc_id
      doc_title := p.2.doc_title
      chunk_id := p.2.chunk_id
      page_number := p.2.page_number
      section_title := p.2.section_title
      preview := if 200 < p.2.text.length then p.2.text.take 200 ++ "...".data
                 else p.2.text })

/-- `AssembledContext` dataclass. -/
structure AssembledContext where
  context_text : List Char
  chunks_used : Nat
  total_tokens : Nat
  source_documents : List Int
  citations : List Citation
deriving DecidableEq, Repr

/-- The budgeting loop of `assemble` (lines 217-235): a chunk whose
formatted token count overflows the budget stops the loop, except that
a `table` chunk strictly under `max_tokens * 1.1` is accepted first
(and then the loop still stops: the `break` is unconditional). -/
def assembleGo (maxTok : Nat) :
    List PyChunk → List (List Char) → List PyChunk → Nat →
    List (List Char) × List PyChunk × Nat
  | [], parts, used, cur => (parts, used, cur)
  | c :: rest, parts, used, cur =>
    let formatted := formatChunk c (used.length + 1)
    let t := countTokens formatted
    if maxTok < cur + t then
      if c.chunk_type = some "table".data ∧
          (mkRat ((cur + t : Nat) : Int) 1 < mkRat (11 * (maxTok : Int)) 10) then
        (parts ++ [formatted], used ++ [c], cur + t)
      else (parts, used, cur)
    else assembleGo maxTok rest (parts ++ [formatted]) (used ++ [c]) (cur + t)

/-- `ContextAssembler.assemble` (lines 180-249).  `selfMaxTokens` is the
assembler's configured budget; the optional call argument overrides it
unless falsy (`max_tokens = max_tokens or self.max_tokens`).  The
`1.1` slack and the score arithmetic are exact rationals (see the file
header).  `source_documents` is `list(set(...))` over the truthy
`doc_id`s; its enumeration order is implementation-defined in CPython
and no theorem below depends on it. -/
def assemble (selfMaxTokens : Nat) (chunks : List PyChunk)
    (maxTokensArg : Option Nat) : AssembledContext :=
  if chunks = [] then ⟨[], 0, 0, [], []⟩
  else
    let maxTok := match maxTokensArg with
      | some m => if m = 0 then selfMaxTokens else m
      | none => selfMaxTokens
    let sorted := sortChunks (dedupChunks chunks)
    let r := assembleGo maxTok sorted [] [] 0
    { context_text := joinSep "\n\n---\n\n".data r.1
      chunks_used := r.2.1.length
      total_tokens := r.2.2
      source_documents :=
        pySetList (r.2.1.filterMap (fun c =>
          match c.doc_id with
          | some d => if d ≠ 0 then some d else none
          | none => none))
      citations := buildCitations r.2.1 }

end ContextAssembler

/-! ### Session memory (`session_memory.py`) -/

/-- `SessionContext` dataclass.  `last_updated` (a `time.time()` float)
is threaded through `update` as an explicit `now` argument. -/
structure SessionContext where
  conversation_id : Int
  last_query : List Char
  last_chunks : List PyChunk
  query_history : List (List Char)
  topic_keywords : List (List Char)
  last_updated : ℚ
deriving DecidableEq, Repr

/-- `SessionContext.update` (lines 21-29): `chunks[:10]` (the FIRST ten
of the supplied list), append the query to the history, and
`topic_keywords = list(set(topic_keywords[-20:] + keywords))[-30:]`.
The `list(set(...))` enumeration is modelled by `pySetList`
(first-occurrence order); CPython's actual order is hash-dependent, and
the theorems below only use membership facts that hold under any
enumeration order. -/
def SessionContext.update (s : SessionContext) (query : List Char)
    (chunks : List PyChunk) (keywords : List (List Char)) (now : ℚ) :
    SessionContext :=
  { s with
      last_query := query
      last_chunks := chunks.take 10
      query_history := s.query_history ++ [query]
      topic_keywords := takeLast 30 (pySetList (takeLast 20 s.topic_keywords ++ keywords))
      last_updated := now }

/-- A fresh `SessionContext(conversation_id)` as `get_session`
creates it (dataclass defaults; creation time as explicit `now`). -/
def freshSession (cid : Int) (now : ℚ) : SessionContext :=
  ⟨cid, [], [], [], [], now⟩

/-! ### Semantic chunker (`chunking_service.py`)

The three `re` patterns are embedded as position matchers with Python
`re` semantics (leftmost match, alternatives in order, greedy with
backtracking); `finditer` is a left-to-right non-overlapping scan.  The
derivations of the backtracking cases are spelled out at each
matcher. -/

/-- The current line: characters up to (excluding) the next newline. -/
def lineOf (cs : List Char) : List Char :=
  cs.takeWhile (fun c => c ≠ '\n')

/-- Index of the last occurrence of `c`. -/
def lastIdxOf (c : Char) (l : List Char) : Option Nat :=
  match l.reverse.findIdx? (· = c) with
  | some j => some (l.length - 1 - j)
  | none => none

/-- Whether position `p` starts a line (for `re.MULTILINE`'s `^`). -/
def isLineStart (txt : List Char) (p : Nat) : Bool :=
  p = 0 || (txt.get? (p - 1) = some '\n')

/-- `int(digits)` for a nonempty digit string. -/
def parseNatDigits (ds : List Char) : Nat :=
  ds.foldl (fun n c => 10 * n + (c.toNat - '0'.toNat)) 0

/-- First row of `TABLE_PATTERN`, `\|[^\n]+\|\n`: starts with `|`; the
closing `|` must be directly followed by `\n`, and the only such `|` is
at the line end (every earlier one is followed by a non-newline), so
the line must end in `|`, have length ≥ 3, and be newline-terminated. -/
def matchTableRow1 (cs : List Char) : Option Nat :=
  match cs with
  | '|' :: _ =>
    let line := lineOf cs
    if 3 ≤ line.length ∧ line.getLast? = some '|' ∧ line.length < cs.length then
      some (line.length + 1)
    else none
  | _ => none

/-- Separator row `\|[-:| ]+\|\n`: as above, with every character of
the line drawn from `-:| ` (space). -/
def matchTableSep (cs : List Char) : Option Nat :=
  match cs with
  | '|' :: _ =>
    let line := lineOf cs
    if 3 ≤ line.length ∧ line.getLast? = some '|' ∧ line.length < cs.length ∧
        line.all (fun c => c = '|' ∨ c = '-' ∨ c = ':' ∨ c = ' ') then
      some (line.length + 1)
    else none
  | _ => none

/-- Body row `\|[^\n]+\|\n?`: greedy `[^\n]+` backtracks to the LAST
`|` of the line (which must be at index ≥ 2); the optional `\n` is
taken only when that `|` sits at the line end and a newline follows. -/
def matchBodyRow (cs : List Char) : Option Nat :=
  match cs with
  | '|' :: _ =>
    let line := lineOf cs
    match lastIdxOf '|' line with
    | some li =>
      if 2 ≤ li then
        if li = line.length - 1 ∧ line.length < cs.length then some (line.length + 1)
        else some (li + 1)
      else none
    | none => none
  | _ => none

/-- Greedy `(?:body row)+` starting at `cs`: total consumed length and
row count (`fuel` bounds the recursion; each row consumes ≥ 3). -/
def bodyRowsGo : Nat → List Char → Nat × Nat
  | 0, _ => (0, 0)
  | fuel + 1, cs =>
    match matchBodyRow cs with
    | none => (0, 0)
    | some len =>
      let r := bodyRowsGo fuel (cs.drop len)
      (len + r.1, r.2 + 1)

/-- `TABLE_PATTERN` at a position.  When the optional separator row is
present the match always succeeds (if no body row follows, the regex
backtracks and the separator itself serves as the required body row,
consuming the same characters); without a separator at least one body
row is required. -/
def matchTableSpanAt (cs : List Char) : Option Nat :=
  match matchTableRow1 cs with
  | none => none
  | some l1 =>
    let rest1 := cs.drop l1
    match matchTableSep rest1 with
    | some ls =>
      let r := bodyRowsGo rest1.length (rest1.drop ls)
      some (l1 + ls + r.1)
    | none =>
      let r := bodyRowsGo rest1.length rest1
      if r.2 = 0 then none else some (l1 + r.1)

/-- `TABLE_PATTERN.finditer`: left-to-right non-overlapping scan,
collecting `(start, end)` spans. -/
def findTablesGo (txt : List Char) : Nat → Nat → List (Nat × Nat)
  | 0, _ => []
  | fuel + 1, p =>
    if txt.length ≤ p then []
    else
      match matchTableSpanAt (txt.drop p) with
      | some len => (p, p + len) :: findTablesGo txt fuel (p + len)
      | none => findTablesGo txt fuel (p + 1)

/-- `SemanticChunker._extract_tables` (spans only; the matched text is
the corresponding slice). -/
def findTables (txt : List Char) : List (Nat × Nat) :=
  findTablesGo txt (txt.length + 1) 0

/-- `PAGE_PATTERN` `^---\s*Page\s*(\d+)\s*---\s*$` (MULTILINE) at a
line start: each `\s*` is followed by a non-whitespace literal, so it
deterministically consumes the maximal whitespace run; the trailing
`\s*$` succeeds at the end of the string or backtracks to the last
newline inside the trailing run (`$` matches before a `\n`).  Returns
`(consumed length, page number)`. -/
def matchPageAt (cs : List Char) : Option (Nat × Nat) :=
  if listStartsWith cs "---".data then
    let a0 := cs.drop 3
    let w1 := (a0.takeWhile isPyWS).length
    let a := a0.drop w1
    if listStartsWith a "Page".data then
      let b0 := a.drop 4
      let w2 := (b0.takeWhile isPyWS).length
      let b := b0.drop w2
      let ds := b.takeWhile Char.isDigit
      if ds ≠ [] then
        let c0 := b.drop ds.length
        let w3 := (c0.takeWhile isPyWS).length
        let c1 := c0.drop w3
        if listStartsWith c1 "---".data then
          let e := c1.drop 3
          let pre := 3 + w1 + 4 + w2 + ds.length + w3 + 3
          let w := e.takeWhile isPyWS
          if e.length = w.length then some (pre + w.length, parseNatDigits ds)
          else
            match lastIdxOf '\n' w with
            | some j => some (pre + j, parseNatDigits ds)
            | none => none
        else none
      else none
    else none
  else none

/-- `PAGE_PATTERN.finditer`: `^`-anchored scan, non-overlapping. -/
def findPagesGo (txt : List Char) : Nat → Nat → List (Nat × Nat)
  | 0, _ => []
  | fuel + 1, p =>
    if txt.length ≤ p then []
    else if isLineStart txt p then
      match matchPageAt (txt.drop p) with
      | some r => (p, r.2) :: findPagesGo txt fuel (p + r.1)
      | none => findPagesGo txt fuel (p + 1)
    else findPagesGo txt fuel (p + 1)

/-- `SemanticChunker._extract_page_numbers`: `(position, N)` pairs in
ascending position order. -/
def findPages (txt : List Char) : List (Nat × Nat) :=
  findPagesGo txt (txt.length + 1) 0

/-- The backtracking split of `\s+(.+)$` when the string ends inside
the whitespace run: the regex reduces `\s+` to the largest `w' ≥ 1`
whose character is not a newline (so `(.+)` can start there); `(.+)`
then takes the non-newline characters of the rest of the run. -/
def wsBacktrackIdx (W : List Char) : Option Nat :=
  match (W.enum.filter (fun p => 1 ≤ p.1 ∧ p.2 ≠ '\n')).getLast? with
  | some p => some p.1
  | none => none

/-- `HEADING_PATTERN` `^(#{1,6})\s+(.+)$` (MULTILINE) at a line start.
`#{1,6}` must be the whole hash run (≤ 6) since any shorter greedy
retry faces another `#`, which is not `\s`.  `\s+` (which may cross
newlines) is maximal when followed by a visible character; when the
string ends inside the run the engine backtracks per
`wsBacktrackIdx`.  Returns `(consumed length, group 2)`. -/
def matchHeadingAt (cs : List Char) : Option (Nat × List Char) :=
  let h := (cs.takeWhile (· = '#')).length
  if 1 ≤ h ∧ h ≤ 6 then
    let c0 := cs.drop h
    let W := c0.takeWhile isPyWS
    if W.length = 0 then none
    else
      let r := c0.drop W.length
      if r ≠ [] then
        let g2 := r.takeWhile (· ≠ '\n')
        some (h + W.length + g2.length, g2)
      else
        match wsBacktrackIdx W with
        | some w' =>
          let g2 := (W.drop w').takeWhile (· ≠ '\n')
          some (h + w' + g2.length, g2)
        | none => none
  else none

/-- `HEADING_PATTERN.finditer`: `(start, group 2)` pairs, ascending. -/
def findHeadingsGo (txt : List Char) : Nat → Nat → List (Nat × List Char)
  | 0, _ => []
  | fuel + 1, p =>
    if txt.length ≤ p then []
    else if isLineStart txt p then
      match matchHeadingAt (txt.drop p) with
      | some r => (p, r.2) :: findHeadingsGo txt fuel (p + r.1)
      | none => findHeadingsGo txt fuel (p + 1)
    else findHeadingsGo txt fuel (p + 1)

/-- All headings of a text. -/
def findHeadings (txt : List Char) : List (Nat × List Char) :=
  findHeadingsGo txt (txt.length + 1) 0

/-- `SemanticChunker._get_page_at_position`: the last marker at or
before `position` (`break` on the first later one; markers are
ascending).  `position` is an `int` and may be `-1` from a failed
`find`. -/
def pageAtGo (pos : Int) : List (Nat × Nat) → Option Int → Option Int
  | [], acc => acc
  | (st, pn) :: rest, acc =>
    if (st : Int) ≤ pos then pageAtGo pos rest (some (pn : Int)) else acc

/-- `SemanticChunker._find_section_title`: the most recent heading at
or before `position`, stripped. -/
def sectionTitleGo (pos : Int) : List (Nat × List Char) → Option (List Char) → Option (List Char)
  | [], acc => acc
  | (st, g2) :: rest, acc =>
    if (st : Int) ≤ pos then sectionTitleGo pos rest (some (pyStrip g2)) else acc

/-- The backtracking case of the split delimiter `#{1,6}\s+[^\n]+\n`
when the first (maximal-`\s+`) try finds no terminating newline: the
required `\n` can then only come from inside the whitespace run, and
the largest viable `\s+` length puts `[^\n]+` on a single non-newline
whitespace character directly before a newline of the run.  Returns the
index of that newline within the run. -/
def delimBacktrack (W : List Char) : Option Nat :=
  match (W.enum.filter
      (fun p => 2 ≤ p.1 ∧ p.2 = '\n' ∧ W.getD (p.1 - 1) '\n' ≠ '\n')).getLast? with
  | some p => some p.1
  | none => none

/-- The split pattern `(\n\n+|^#{1,6}\s+[^\n]+\n)` (MULTILINE) at a
position: alternative 1 is a maximal run of ≥ 2 newlines; alternative 2
(only at a line start) is a heading line whose match consumes the
terminating newline.  Returns the consumed length. -/
def matchDelimAt (cs : List Char) (atLS : Bool) : Option Nat :=
  let nls := (cs.takeWhile (· = '\n')).length
  if 2 ≤ nls then some nls
  else if atLS then
    let h := (cs.takeWhile (· = '#')).length
    if 1 ≤ h ∧ h ≤ 6 then
      let c0 := cs.drop h
      let W := c0.takeWhile isPyWS
      if W.length = 0 then none
      else
        let r := c0.drop W.length
        let body := r.takeWhile (· ≠ '\n')
        if r ≠ [] ∧ body.length < r.length then
          some (h + W.length + body.length + 1)
        else
          match delimBacktrack W with
          | some k => some (h + k + 1)
          | none => none
    else none
  else none

/-- The `finditer` loop of `_split_at_boundaries` (lines 143-166): the
text before each delimiter is stripped and kept when nonempty; a
delimiter whose stripped text starts with `#` (a heading) becomes its
own segment; the stripped tail is appended at the end. -/
def splitScanGo (prot : List Char) : Nat → Nat → Nat → List (List Char) → List (List Char)
  | 0, _, _, segs => segs
  | fuel + 1, p, cur, segs =>
    if prot.length ≤ p then
      let tail := pyStrip (prot.drop cur)
      if cur < prot.length ∧ tail ≠ [] then segs ++ [tail] else segs
    else
      match matchDelimAt (prot.drop p) (isLineStart prot p) with
      | some len =>
        let pre := pyStrip ((prot.drop cur).take (p - cur))
        let segs1 := if cur < p ∧ pre ≠ [] then segs ++ [pre] else segs
        let d := pyStrip ((prot.drop p).take len)
        let segs2 := if listStartsWith d "#".data then segs1 ++ [d] else segs1
        splitScanGo prot fuel (p + len) (p + len) segs2
      | none => splitScanGo prot fuel (p + 1) cur segs

/-- `SemanticChunker._split_at_boundaries` (lines 127-175): protect
tables behind `<<<TABLE_i>>>` placeholders (tables processed in
descending start order, as `sorted(tables, reverse=True)`; `findTables`
yields ascending spans, so that is the reverse), split, then restore
each placeholder by string replacement in insertion (i ascending)
order. -/
def splitBoundaries (text : List Char) : List (List Char) :=
  let tabsDesc := (findTables text).reverse
  let phs := tabsDesc.enum.map (fun q =>
    ("<<<TABLE_".data ++ (toString q.1).data ++ ">>>".data,
     (text.drop q.2.1).take (q.2.2 - q.2.1)))
  let prot := tabsDesc.enum.foldl (fun acc q =>
    acc.take q.2.1 ++ ("<<<TABLE_".data ++ (toString q.1).data ++ ">>>".data) ++ acc.drop q.2.2) text
  let rawSegs := splitScanGo prot (prot.length + 1) 0 0 []
  rawSegs.map (fun seg => phs.foldl (fun sg pr => pyReplace sg pr.1 pr.2) seg)

/-- `Chunk` dataclass (`chunking_service.py`). -/
structure Chunk where
  text : List Char
  chunk_index : Nat
  start_char : Int
  end_char : Int
  page_number : Option Int
  chunk_type : List Char
  section_title : Option (List Char)
  token_count : Nat
deriving DecidableEq, Repr

/-- Chunker configuration (`min_tokens` is stored by `__init__` but
never read by `chunk_text`; `overlap_percent` as an exact rational). -/
structure ChunkerConfig where
  minTokens : Nat
  maxTokens : Nat
  overlapPercent : ℚ
deriving DecidableEq, Repr

/-- Flushing a pending text chunk (the construction repeated at lines
207-222, 243-258 and 281-296): join with `"\n\n"`, locate the first
segment by `text.find` (first occurrence, `-1` when absent), and set
`end_char = start_char + len(chunk_text)`. -/
def flushChunk (text : List Char) (pages : List (Nat × Nat))
    (heads : List (Nat × List Char)) (curSegs : List (List Char))
    (curTok : Nat) (ci : Nat) : Chunk :=
  let ctext := ContextAssembler.joinSep "\n\n".data curSegs
  let start := pyFind text (curSegs.headD [])
  { text := ctext
    chunk_index := ci
    start_char := start
    end_char := start + (ctext.length : Int)
    page_number := pageAtGo start pages none
    chunk_type := "text".data
    section_title := sectionTitleGo start heads none
    token_count := curTok }

/-- A standalone table chunk (lines 227-238). -/
def tableChunk (text : List Char) (pages : List (Nat × Nat))
    (heads : List (Nat × List Char)) (seg : List Char) (segTok : Nat)
    (ci : Nat) : Chunk :=
  let start := pyFind text seg
  { text := seg
    chunk_index := ci
    start_char := start
    end_char := start + (seg.length : Int)
    page_number := pageAtGo start pages none
    chunk_type := "table".data
    section_title := sectionTitleGo start heads none
    token_count := segTok }

/-- The overlap-selection loop (lines 266-272): walk the flushed
segments from the end, keeping them while the running count stays
within the overlap budget. -/
def overlapGo (ovTok : Nat) (acc : List (List Char)) (cnt : Nat) :
    List (List Char) → List (List Char) × Nat
  | [] => (acc, cnt)
  | seg :: rest =>
    let st := SemanticChunker.countTokens seg
    if cnt + st ≤ ovTok then overlapGo ovTok (seg :: acc) (cnt + st) rest
    else (acc, cnt)

/-- The segment-packing loop of `chunk_text` (lines 201-296),
including the final flush. -/
def chunkLoopGo (cfg : ChunkerConfig) (text : List Char)
    (pages : List (Nat × Nat)) (heads : List (Nat × List Char)) :
    List (List Char) → List Chunk → List (List Char) → Nat → Nat → List Chunk
  | [], chunks, curSegs, curTok, ci =>
    if curSegs ≠ [] then chunks ++ [flushChunk text pages heads curSegs curTok ci]
    else chunks
  | seg :: rest, chunks, curSegs, curTok, ci =>
    let segTok := SemanticChunker.countTokens seg
    if findTables seg ≠ [] then
      let chunks1 :=
        if curSegs ≠ [] then chunks ++ [flushChunk text pages heads curSegs curTok ci]
        else chunks
      let ci1 := if curSegs ≠ [] then ci + 1 else ci
      chunkLoopGo cfg text pages heads rest
        (chunks1 ++ [tableChunk text pages heads seg segTok ci1]) [] 0 (ci1 + 1)
    else if cfg.maxTokens < curTok + segTok ∧ curSegs ≠ [] then
      let chunks1 := chunks ++ [flushChunk text pages heads curSegs curTok ci]
      let ovTok := (Int.tdiv ((curTok : Int) * cfg.overlapPercent.num)
        (cfg.overlapPercent.den : Int)).toNat
      let ov := overlapGo ovTok [] 0 curSegs.reverse
      chunkLoopGo cfg text pages heads rest chunks1 (ov.1 ++ [seg]) (ov.2 + segTok) (ci + 1)
    else
      chunkLoopGo cfg text pages heads rest chunks (curSegs ++ [seg]) (curTok + segTok) ci

/-- `SemanticChunker.chunk_text` (lines 177-298). -/
def chunkText (cfg : ChunkerConfig) (text : List Char) : List Chunk :=
  if pyStrip text = [] then []
  else
    chunkLoopGo cfg text (findPages text) (findHeadings text)
      (splitBoundaries text) [] [] 0 0

/-- One dict of `chunk_with_metadata`'s output (lines 319-333). -/
structure ChunkRecord where
  doc_id : Int
  chunk_id : Int
  chunk_index : Int
  text : List Char
  start_char : Int
  end_char : Int
  page_number : Option Int
  chunk_type : List Char
  section_title : Option (List Char)
  token_count : Int
deriving DecidableEq, Repr

/-- `SemanticChunker.chunk_with_metadata` (lines 300-333):
`chunk_id = base_chunk_id + chunk.chunk_index`. -/
def chunkWithMetadata (cfg : ChunkerConfig) (text : List Char) (docId : Int)
    (baseChunkId : Int) : List ChunkRecord :=
  (chunkText cfg text).map (fun c =>
    { doc_id := docId
      chunk_id := baseChunkId + (c.chunk_index : Int)
      chunk_index := (c.chunk_index : Int)
      text := c.text
      start_char := c.start_char
      end_char := c.end_char
      page_number := c.page_number
      chunk_type := c.chunk_type
      section_title := c.section_title
      token_count := (c.token_count : Int) })

/-! ### Orchestrator ingestion (`rag_service.py`, lines 84-163)

The vector-store effect of `RAGService.ingest_document`: chunk with
`base_chunk_id=0`, embed every chunk text (the embedding model is
external; it enters as the `embed` function), build `ChunkMetadata`
records, and call `add`.  The subsequent `DocumentChunk` database
rows, the `document.embedded` flag and `vector_store.save()` do not
touch the id assignment. -/

/-- `ingest_document`, through step 4 (`vector_store.add`). -/
def ingestDocument (cfg : ChunkerConfig) (embed : List Char → List ℚ)
    (s : FAISSVectorStore) (extractedText : List Char) (docId : Int) :
    FAISSVectorStore × Except String (List Int) :=
  if extractedText = [] then (s, .error "No extracted text")
  else
    let chunks := chunkWithMetadata cfg extractedText docId 0
    if chunks = [] then (s, .error "No chunks created")
    else
      let chunkTexts := chunks.map (·.text)
      let embeddings := chunkTexts.map embed
      let metadatas := chunks.map (fun c =>
        ChunkMetadata.mk c.doc_id c.chunk_id c.chunk_index c.page_number
          c.chunk_type c.section_title c.token_count)
      s.add embeddings chunkTexts metadatas

/-! ### Derived observers and the amended id-assignment rule -/

/-- The accepted-chunk list of `assemble` (the loop's `used_chunks`),
exposed as an observer with the same guard/let structure as
`ContextAssembler.assemble`. -/
def ContextAssembler.assembledUsed (selfMaxTokens : Nat) (chunks : List PyChunk)
    (maxTokensArg : Option Nat) : List PyChunk :=
  if chunks = [] then []
  else
    let maxTok := match maxTokensArg with
      | some m => if m = 0 then selfMaxTokens else m
      | none => selfMaxTokens
    (ContextAssembler.assembleGo maxTok
      (ContextAssembler.sortChunks (ContextAssembler.dedupChunks chunks)) [] [] 0).2.1

/-- The amended identifier-assignment rule of the spec, stated as a
standalone recursion over the supplied `chunk_id`s: a nonzero supplied
id is used as-is, a zero id receives the current `next_id`, and after
every assignment `next_id = max(next_id, assigned + 1)`.  Returns the
assigned ids and the final `next_id`. -/
def assignIdsAmended (nid : Int) : List Int → List Int × Int
  | [] => ([], nid)
  | c :: rest =>
    let i := if c ≠ 0 then c else nid
    let r := assignIdsAmended (max nid (i + 1)) rest
    (i :: r.1, r.2)

/-! ### Concrete example values for the counterexamples and witnesses -/

/-- Shorthand metadata record. -/
def mkMeta (d cid : Int) : ChunkMetadata :=
  ⟨d, cid, 0, none, "text".data, none, 0⟩

/-- The chunker defaults (`min_tokens=500`, `max_tokens=800`,
`overlap_percent=0.15`). -/
def cfgDefault : ChunkerConfig := ⟨500, 800, mkRat 15 100⟩

/-- A small chunker configuration (`SemanticChunker(1, 3, 0.15)`; the
constructor and `APP_CONFIG` accept arbitrary bounds). -/
def cfgC1 : ChunkerConfig := ⟨1, 3, mkRat 15 100⟩

/-- A degenerate external embedder mapping every text to the unit
1-dimensional vector. -/
def embedOne : List Char → List ℚ := fun _ => [1]

/-- The store after ingesting document 1 (two chunks) into an empty
store. -/
def storeC1A : FAISSVectorStore :=
  (ingestDocument cfgC1 embedOne (emptyStore 384) "aaaaaaaa\n\nbbbbbbbb".data 1).1

/-- The ingestion of document 2 (three chunks) into `storeC1A`. -/
def ingestC1B : FAISSVectorStore × Except String (List Int) :=
  ingestDocument cfgC1 embedOne storeC1A "cccccccc\n\ndddddddd\n\neeeeeeee".data 2

/-- A one-vector store (doc 7). -/
def stC2 : FAISSVectorStore :=
  ((emptyStore 2).add [[1, 0]] ["ta".data] [mkMeta 7 1]).1

/-- A three-vector store over docs 7 and 8. -/
def stC2W : FAISSVectorStore :=
  ((emptyStore 2).add [[1, 0], [0, 1], [1, 1]]
    ["t1".data, "t2".data, "t3".data] [mkMeta 7 1, mkMeta 8 2, mkMeta 7 3]).1

/-- A one-vector store of dimension 2. -/
def stC3 : FAISSVectorStore :=
  ((emptyStore 2).add [[1, 0]] ["tc".data] [mkMeta 1 1]).1

/-- A one-vector store of dimension 1 (doc 1). -/
def stC4 : FAISSVectorStore :=
  ((emptyStore 1).add [[1]] ["td".data] [mkMeta 1 1]).1

/-- `stC4` persisted onto an empty disk. -/
def diskC4 : Option StoreDisk := stC4.save none

/-- `stC4` after `delete_by_doc_id(1)` (now empty in memory). -/
def stC4del : FAISSVectorStore := stC4.deleteByDocId 1

/-- A single small text chunk for the assembler. -/
def exC5 : List PyChunk :=
  [⟨"Short text.".data, some 1, none, none, some 0, none, none, none⟩]

/-- A store whose `next_id` is 1 (one auto-assigned entry). -/
def stC6 : FAISSVectorStore :=
  ((emptyStore 1).add [[1]] ["te".data] [⟨1, 0, 0, none, "text".data, none, 0⟩]).1

/-- A metadata record carrying the caller-supplied `chunk_id = 0`. -/
def mC6 : ChunkMetadata := ⟨2, 0, 0, none, "text".data, none, 0⟩

/-- Twenty-two distinct session keywords `k0 … k21`. -/
def kw22 : List (List Char) :=
  (List.range 22).map (fun i => ("k" ++ toString i).data)

/-- A session holding `kw22`. -/
def sess22 : SessionContext := ⟨5, [], [], [], kw22, 0⟩

/-- Eleven retrieved chunks `0 … 10`. -/
def chunks11 : List PyChunk :=
  (List.range 11).map (fun i =>
    ⟨(toString i).data, none, none, none, none, none, none, none⟩)

/-- A two-vector store over docs 1 and 2. -/
def stC10 : FAISSVectorStore :=
  ((emptyStore 1).add [[1], [2]] ["u1".data, "u2".data] [mkMeta 1 1, mkMeta 2 2]).1

-- Decidable equality for `add`/`ingest` results.
deriving instance DecidableEq for Except

/-- The single chunk produced by the default chunker on `"hi"`. -/
def cEx7 : Chunk :=
  ⟨"hi".data, 0, 0, 2, none, "text".data, none, 0⟩

/-- Well-formedness of a store as maintained by `add` and rebuilds:
every FAISS slot has a mapped id, every mapped id has metadata, and
metadata keys are unique (Python dict keys). -/
def storeWF (s : FAISSVectorStore) : Prop :=
  s.id_map.length = s.ntotal ∧
  (∀ cid ∈ s.id_map, (pyDictGet s.metadata cid).isSome) ∧
  (s.metadata.map Prod.fst).Nodup

/-! ## Theorems -/

/-! ### Generic helper lemmas -/

theorem pySetList_mem {α : Type} [DecidableEq α] (a : α) :
    ∀ l : List α, a ∈ pySetList l ↔ a ∈ l := by
  intro l
  induction l with
  | nil => simp [pySetList]
  | cons x rest ih =>
    by_cases hx : x ∈ rest
    · simp only [pySetList, if_pos hx, ih, List.mem_cons]
      constructor
      · exact Or.inr
      · rintro (rfl | h)
        · exact hx
        · exact h
    · simp only [pySetList, if_neg hx, List.mem_cons, ih]

theorem pySetList_length {α : Type} [DecidableEq α] :
    ∀ l : List α, (pySetList l).length = l.dedup.length := by
  intro l
  induction l with
  | nil => simp [pySetList]
  | cons x rest ih =>
    by_cases hx : x ∈ rest
    · simp only [pySetList, if_pos hx, List.dedup_cons_of_mem hx, ih]
    · simp only [pySetList, if_neg hx, List.dedup_cons_of_not_mem hx, List.length_cons, ih]

theorem takeLast_length_le {α : Type} (n : Nat) (l : List α) :
    (takeLast n l).length ≤ n := by
  simp only [takeLast, List.length_drop]
  omega

theorem takeLast_subset {α : Type} (n : Nat) (l : List α) {a : α}
    (h : a ∈ takeLast n l) : a ∈ l :=
  List.drop_subset _ l h

theorem takeLast_of_length_le {α : Type} {n : Nat} {l : List α}
    (h : l.length ≤ n) : takeLast n l = l := by
  simp only [takeLast]
  rw [Nat.sub_eq_zero_of_le h, List.drop_zero]

theorem qMul_eq (a b : ℚ) : qMul a b = a * b := by
  rw [qMul, Rat.mkRat_eq_divInt]
  push_cast
  rw [← Rat.divInt_mul_divInt' a.num (a.den : ℤ) b.num (b.den : ℤ),
    Rat.num_divInt_den, Rat.num_divInt_den]

theorem qAdd_eq (a b : ℚ) : qAdd a b = a + b := by
  rw [qAdd, Rat.mkRat_eq_divInt]
  push_cast
  rw [← Rat.divInt_add_divInt a.num b.num
      (Int.natCast_ne_zero.2 a.den_ne_zero) (Int.natCast_ne_zero.2 b.den_ne_zero),
    Rat.num_divInt_den, Rat.num_divInt_den]

theorem zipWith_qMul_eq (q : List ℚ) :
    ∀ v : List ℚ, List.zipWith qMul q v = List.zipWith (· * ·) q v := by
  induction q with
  | nil => intro v; simp
  | cons x xs ih =>
    intro v
    cases v with
    | nil => simp
    | cons y ys => simp [qMul_eq, ih]

theorem foldl_qAdd_eq (l : List ℚ) :
    ∀ init : ℚ, l.foldl qAdd init = init + l.sum := by
  induction l with
  | nil => intro init; simp
  | cons x rest ih =>
    intro init
    simp only [List.foldl_cons, List.sum_cons, ih, qAdd_eq]
    ring

/-- `dotQ` is the standard inner product. -/
theorem dotQ_eq_sum (q v : List ℚ) :
    dotQ q v = (List.zipWith (· * ·) q v).sum := by
  rw [dotQ, zipWith_qMul_eq, foldl_qAdd_eq, zero_add]

/-! ### C9 - the fallback tokenizer -/

/-- C9 counterexample: on the five-character string `"aaaaa"` both
fallback tokenizers return `5 // 4 = 1`, whereas the claimed estimate
`⌈len/4⌉` is `2`. -/
theorem C9_counterexample :
    SemanticChunker.countTokens "aaaaa".data = 1 ∧
    ContextAssembler.countTokens "aaaaa".data = 1 ∧
    ⌈(("aaaaa".data.length : ℚ)) / 4⌉ = 2 := by
  refine ⟨by decide, by decide, ?_⟩
  have h5 : ("aaaaa".data.length : ℚ) = 5 := by norm_num [String.data]
  rw [h5, Int.ceil_eq_iff]
  norm_num

/-- C9 (amended): for every string, the fallback tokenizer used by the
chunker and the one used by the assembler agree and both return
`⌊len/4⌋` (floor division), not `⌈len/4⌉`. -/
theorem C9_amended (s : List Char) :
    SemanticChunker.countTokens s = ContextAssembler.countTokens s ∧
    (SemanticChunker.countTokens s : ℤ) = ⌊(s.length : ℚ) / 4⌋ := by
  refine ⟨rfl, ?_⟩
  have h := Rat.floor_intCast_div_natCast (s.length : ℤ) 4
  have h1 : (((s.length : ℤ)) : ℚ) = (s.length : ℚ) := by push_cast; ring
  have h2 : (((4 : ℕ)) : ℚ) = (4 : ℚ) := by norm_num
  rw [h1, h2] at h
  rw [h]
  simp only [SemanticChunker.countTokens]
  omega

/-! ### C3 - dimension mismatch leaves the store unchanged -/

/-- C3: once the store holds at least one vector, an `add` whose
(rectangular, nonempty) embeddings have a row length different from the
store's dimension returns the dimension-mismatch error, and the
returned store is exactly the pre-call store: index, texts map,
metadata map, slot map and `next_id` all keep their values. -/
theorem C3_mismatch_preserves_store
    (s : FAISSVectorStore) (embs : List (List ℚ)) (txts : List (List Char))
    (mds : List ChunkMetadata)
    (hnz : 0 < s.ntotal) (hne : embs ≠ [])
    (hlt : embs.length = txts.length) (hlm : embs.length = mds.length)
    (hdim : (embs.headD []).length ≠ s.dimension) :
    s.add embs txts mds = (s, Except.error "Embedding dimension != index dimension") := by
  have h0 : ¬ embs.length = 0 := by
    simpa [List.length_eq_zero] using hne
  have hno : ¬ (embs.length ≠ txts.length ∨ embs.length ≠ mds.length) := by
    push_neg
    exact ⟨hlt, hlm⟩
  have hz : ¬ s.ntotal = 0 := by omega
  simp only [FAISSVectorStore.add, if_neg h0, if_neg hno, if_pos hdim, if_neg hz]

/-- C3 witness at a concrete one-vector store of dimension 2 and a
3-dimensional batch. -/
theorem C3_witness :
    0 < stC3.ntotal ∧
    stC3.add [[1, 2, 3]] ["w".data] [mkMeta 1 5] =
      (stC3, Except.error "Embedding dimension != index dimension") :=
  ⟨by decide,
   C3_mismatch_preserves_store stC3 [[1, 2, 3]] ["w".data] [mkMeta 1 5]
     (by decide) (by decide) (by decide) (by decide) (by decide)⟩

/-! ### C7 - chunk text vs recorded span -/

theorem flushChunk_end_char (text : List Char) (pages : List (Nat × Nat))
    (heads : List (Nat × List Char)) (curSegs : List (List Char))
    (curTok ci : Nat) :
    (flushChunk text pages heads curSegs curTok ci).end_char =
      (flushChunk text pages heads curSegs curTok ci).start_char +
        (((flushChunk text pages heads curSegs curTok ci).text).length : Int) := rfl

theorem tableChunk_end_char (text : List Char) (pages : List (Nat × Nat))
    (heads : List (Nat × List Char)) (seg : List Char) (segTok ci : Nat) :
    (tableChunk text pages heads seg segTok ci).end_char =
      (tableChunk text pages heads seg segTok ci).start_char +
        (((tableChunk text pages heads seg segTok ci).text).length : Int) := rfl

theorem chunkLoop_end_char (cfg : ChunkerConfig) (text : List Char)
    (pages : List (Nat × Nat)) (heads : List (Nat × List Char)) :
    ∀ (segs : List (List Char)) (chunks : List Chunk) (curSegs : List (List Char))
      (curTok ci : Nat),
    (∀ c ∈ chunks, c.end_char = c.start_char + (c.text.length : Int)) →
    ∀ c ∈ chunkLoopGo cfg text pages heads segs chunks curSegs curTok ci,
      c.end_char = c.start_char + (c.text.length : Int) := by
  intro segs
  induction segs with
  | nil =>
    intro chunks curSegs curTok ci h c hc
    simp only [chunkLoopGo] at hc
    split at hc
    · rcases List.mem_append.1 hc with h1 | h1
      · exact h c h1
      · rcases List.mem_singleton.1 h1 with rfl
        exact flushChunk_end_char ..
    · exact h c hc
  | cons seg rest ih =>
    intro chunks curSegs curTok ci h c hc
    simp only [chunkLoopGo] at hc
    split at hc
    · refine ih _ _ _ _ ?_ c hc
      intro c' hc'
      rcases List.mem_append.1 hc' with h1 | h1
      · split at h1
        · rcases List.mem_append.1 h1 with h2 | h2
          · exact h c' h2
          · rcases List.mem_singleton.1 h2 with rfl
            exact flushChunk_end_char ..
        · exact h c' h1
      · rcases List.mem_singleton.1 h1 with rfl
        exact tableChunk_end_char ..
    · split at hc
      · refine ih _ _ _ _ ?_ c hc
        intro c' hc'
        rcases List.mem_append.1 hc' with h1 | h1
        · exact h c' h1
        · rcases List.mem_singleton.1 h1 with rfl
          exact flushChunk_end_char ..
      · exact ih _ _ _ _ h c hc

/-- C7 (amended): for every chunker configuration and input text, every
emitted chunk satisfies `end_char = start_char + len(text)` (as the
code sets it at all three construction sites).  The claimed substring
property itself is refuted by `C7_counterexample`: `start_char` comes
from `text.find` on the first segment and inter-segment whitespace is
normalized to `"\n\n"`, so the recorded span need not contain the
chunk text. -/
theorem C7_amended (cfg : ChunkerConfig) (text : List Char) :
    ∀ c ∈ chunkText cfg text, c.end_char = c.start_char + (c.text.length : Int) := by
  intro c hc
  by_cases h : pyStrip text = []
  · simp [chunkText, h] at hc
  · simp only [chunkText, if_neg h] at hc
    exact chunkLoop_end_char cfg text _ _ _ [] [] 0 0 (by simp) c hc

/-- C7 counterexample: on `"a\n\n\nb"` the single emitted chunk has
text `"a\n\nb"` and span `[0, 4)`, but the source substring at that
span is `"a\n\n\n"`; the two differ even after the repository's own
whitespace normalization (`\s+` collapse plus strip), since one
contains the letter `b` and the other does not. -/
theorem C7_counterexample :
    chunkText cfgDefault "a\n\n\nb".data =
      [{ text := "a\n\nb".data, chunk_index := 0, start_char := 0, end_char := 4,
         page_number := none, chunk_type := "text".data, section_title := none,
         token_count := 0 }] ∧
    (("a\n\n\nb".data.drop 0).take 4 = "a\n\n\n".data) ∧
    "a\n\nb".data ≠ "a\n\n\n".data ∧
    wsCollapse (pyStrip "a\n\nb".data) ≠ wsCollapse (pyStrip "a\n\n\n".data) := by
  decide

/-- C7 witness: the amended invariant evaluated on the chunk emitted
for `"hi"`. -/
theorem C7_witness :
    cEx7 ∈ chunkText cfgDefault "hi".data ∧
    cEx7.end_char = cEx7.start_char + (cEx7.text.length : Int) :=
  ⟨by decide, C7_amended cfgDefault "hi".data cEx7 (by decide)⟩

/-! ### C4 - persist / fresh-load round trip -/

/-- C4 counterexample: persist a one-vector store, delete its only
document (the in-memory store becomes empty), call `save()` again
(which returns without writing), and reload: the fresh store has
`count() = 1` while the persisted-from store has `count() = 0`, so
"persist followed by fresh load yields identical `count()`" fails for
this store state. -/
theorem C4_counterexample :
    stC4del.getTotalCount = 0 ∧
    (freshLoad (stC4del.save diskC4) 384).getTotalCount = 1 ∧
    (freshLoad (stC4del.save diskC4) 384).getTotalCount ≠ stC4del.getTotalCount := by
  decide

/-- C4 (amended): for every store state holding at least one vector,
`persist()` followed by a fresh load yields identical `count()`,
identical score of every stored vector against any fixed query vector,
and identical id-to-text and id-to-metadata maps (and the same slot
map, `next_id` and dimension). -/
theorem C4_amended (s : FAISSVectorStore) (disk : Option StoreDisk) (dim0 : Nat)
    (h : 0 < s.ntotal) :
    (freshLoad (s.save disk) dim0).getTotalCount = s.getTotalCount ∧
    (∀ q : List ℚ,
      (freshLoad (s.save disk) dim0).vecs.map (dotQ q) = s.vecs.map (dotQ q)) ∧
    (freshLoad (s.save disk) dim0).texts = s.texts ∧
    (freshLoad (s.save disk) dim0).metadata = s.metadata ∧
    (freshLoad (s.save disk) dim0).id_map = s.id_map ∧
    (freshLoad (s.save disk) dim0).next_id = s.next_id ∧
    (freshLoad (s.save disk) dim0).dimension = s.dimension := by
  have hz : ¬ s.ntotal = 0 := by omega
  unfold FAISSVectorStore.save
  rw [if_neg hz]
  simp [freshLoad, FAISSVectorStore.getTotalCount, FAISSVectorStore.ntotal,
    FAISSVectorStore.vecs]

/-- C4 witness: the round trip evaluated on the concrete one-vector
store `stC4`. -/
theorem C4_witness :
    0 < stC4.ntotal ∧
    (freshLoad (stC4.save none) 384).getTotalCount = stC4.getTotalCount ∧
    (freshLoad (stC4.save none) 384).texts = stC4.texts :=
  ⟨by decide,
   (C4_amended stC4 none 384 (by decide)).1,
   (C4_amended stC4 none 384 (by decide)).2.2.1⟩

/-! ### C1 - store-wide uniqueness of chunk ids under ingestion -/

/-- C1: evaluation at the failing input.  Ingesting document 1
(`"aaaaaaaa\n\nbbbbbbbb"`, two chunks) into an empty store assigns
chunk ids `[0, 1]`; ingesting document 2
(`"cccccccc\n\ndddddddd\n\neeeeeeee"`, three chunks) then assigns
`[2, 1, 2]` - because `ingest_document` always passes
`base_chunk_id=0`, chunk 1 of document 2 reuses id 1 (already document
1's) and its chunk 0 is assigned `next_id = 2`, colliding with its own
chunk 2.  The slot map ends as `[0, 1, 2, 1, 2]`: the claimed
store-wide uniqueness of `chunk_id` is violated by the orchestrator's
own ingestion workflow. -/
theorem C1_theorem :
    (ingestDocument cfgC1 embedOne (emptyStore 384) "aaaaaaaa\n\nbbbbbbbb".data 1).2 =
      Except.ok [0, 1] ∧
    storeC1A.next_id = 2 ∧
    ingestC1B.2 = Except.ok [2, 1, 2] ∧
    ingestC1B.1.id_map = [0, 1, 2, 1, 2] ∧
    ¬ ingestC1B.1.id_map.Nodup := by
  decide

/-! ### C6 - identifier assignment in `add` -/

theorem addAssign_assignIds :
    ∀ (pairs : List (ChunkMetadata × List Char)) (md : List (Int × ChunkMetadata))
      (tx : List (Int × List Char)) (im : List Int) (nid : Int) (acc : List Int),
    (addAssign pairs md tx im nid acc).2.2.2.2 =
      acc ++ (assignIdsAmended nid (pairs.map (fun p => p.1.chunk_id))).1 ∧
    (addAssign pairs md tx im nid acc).2.2.2.1 =
      (assignIdsAmended nid (pairs.map (fun p => p.1.chunk_id))).2 ∧
    (addAssign pairs md tx im nid acc).2.2.1 =
      im ++ (assignIdsAmended nid (pairs.map (fun p => p.1.chunk_id))).1 := by
  intro pairs
  induction pairs with
  | nil => intro md tx im nid acc; simp [addAssign, assignIdsAmended]
  | cons p rest ih =>
    intro md tx im nid acc
    obtain ⟨m, t⟩ := p
    simp only [addAssign, assignIdsAmended, List.map_cons]
    obtain ⟨ih1, ih2, ih3⟩ := ih (pyDictInsert md (if m.chunk_id ≠ 0 then m.chunk_id else nid) m)
      (pyDictInsert tx (if m.chunk_id ≠ 0 then m.chunk_id else nid) t)
      (im ++ [if m.chunk_id ≠ 0 then m.chunk_id else nid])
      (max nid ((if m.chunk_id ≠ 0 then m.chunk_id else nid) + 1))
      (acc ++ [if m.chunk_id ≠ 0 then m.chunk_id else nid])
    refine ⟨?_, ?_, ?_⟩
    · rw [ih1]; simp
    · rw [ih2]
    · rw [ih3]; simp

/-- C6 (amended): for every successful `add`, the assigned ids and the
final `next_id` follow the amended rule `assignIdsAmended`: an entry
whose metadata carries a NONZERO `chunk_id` is assigned exactly that
id; a `chunk_id` of `0` is treated as unsupplied (Python truthiness)
and receives the current `next_id`; after every assignment
`next_id = max(next_id, assigned + 1)`.  The assigned ids are appended
to the slot map in order. -/
theorem C6_amended (s : FAISSVectorStore) (embs : List (List ℚ))
    (txts : List (List Char)) (mds : List ChunkMetadata)
    (s' : FAISSVectorStore) (ids : List Int)
    (hlt : embs.length = txts.length) (hlm : embs.length = mds.length)
    (hok : s.add embs txts mds = (s', Except.ok ids)) :
    ids = (assignIdsAmended s.next_id (mds.map (fun m => m.chunk_id))).1 ∧
    s'.next_id = (assignIdsAmended s.next_id (mds.map (fun m => m.chunk_id))).2 ∧
    s'.id_map = s.id_map ++ ids := by
  have hzip : (mds.zip txts).map (fun p => p.1.chunk_id) = mds.map (fun m => m.chunk_id) := by
    have : (mds.zip txts).map Prod.fst = mds :=
      List.map_fst_zip mds txts (by omega)
    calc (mds.zip txts).map (fun p => p.1.chunk_id)
        = ((mds.zip txts).map Prod.fst).map (fun m => m.chunk_id) := by
          rw [List.map_map]; rfl
      _ = mds.map (fun m => m.chunk_id) := by rw [this]
  by_cases h0 : embs.length = 0
  · have hmds : mds = [] := by
      have := hlm; rw [h0] at this
      exact (List.length_eq_zero.1 this.symm)
    simp only [FAISSVectorStore.add, if_pos h0] at hok
    obtain ⟨rfl, hids⟩ : s = s' ∧ Except.ok ([] : List Int) = Except.ok ids := by
      constructor
      · exact congrArg Prod.fst hok
      · exact congrArg Prod.snd hok
    have : ids = [] := by
      injection hids with h
      exact h.symm
    subst this
    simp [hmds, assignIdsAmended]
  · have hno : ¬ (embs.length ≠ txts.length ∨ embs.length ≠ mds.length) := by
      push_neg; exact ⟨hlt, hlm⟩
    simp only [FAISSVectorStore.add, if_neg h0, if_neg hno] at hok
    have key : ∀ (sbase : FAISSVectorStore), sbase.next_id = s.next_id →
        sbase.id_map = s.id_map →
        addCore sbase embs txts mds = (s', Except.ok ids) →
        ids = (assignIdsAmended s.next_id (mds.map (fun m => m.chunk_id))).1 ∧
        s'.next_id = (assignIdsAmended s.next_id (mds.map (fun m => m.chunk_id))).2 ∧
        s'.id_map = s.id_map ++ ids := by
      intro sbase hnid him hcore
      obtain ⟨h1, h2, h3⟩ := addAssign_assignIds (mds.zip txts) sbase.metadata sbase.texts
        sbase.id_map sbase.next_id []
      rw [hzip] at h1 h2 h3
      simp only [addCore] at hcore
      have hs' : s' = { sbase with
          metadata := (addAssign (mds.zip txts) sbase.metadata sbase.texts sbase.id_map sbase.next_id []).1
          texts := (addAssign (mds.zip txts) sbase.metadata sbase.texts sbase.id_map sbase.next_id []).2.1
          id_map := (addAssign (mds.zip txts) sbase.metadata sbase.texts sbase.id_map sbase.next_id []).2.2.1
          next_id := (addAssign (mds.zip txts) sbase.metadata sbase.texts sbase.id_map sbase.next_id []).2.2.2.1
          index := some (sbase.vecs ++ embs) } :=
        (congrArg Prod.fst hcore).symm
      have hids : ids = (addAssign (mds.zip txts) sbase.metadata sbase.texts sbase.id_map sbase.next_id []).2.2.2.2 := by
        have := congrArg Prod.snd hcore
        simp only at this
        injection this with h
        exact h.symm
      rw [hids, h1, hnid]
      refine ⟨by simp, ?_, ?_⟩
      · rw [hs']; simpa [hnid] using h2
      · rw [hs']; simpa [him, hnid] using h3
    split at hok
    · split at hok
      · exact key { s with dimension := (embs.headD []).length } rfl rfl hok
      · exact absurd hok (by simp)
    · exact key s rfl rfl hok

/-- C6 counterexample: in a store with `next_id = 1`, adding an entry
whose metadata carries the caller-supplied `chunk_id = 0` stores it
under id 1, not under the supplied id 0: Python's truthiness test
treats a supplied 0 as absent. -/
theorem C6_counterexample :
    stC6.next_id = 1 ∧ mC6.chunk_id = 0 ∧
    (stC6.add [[1]] ["tf".data] [mC6]).2 = Except.ok [1] ∧
    pyDictGet (stC6.add [[1]] ["tf".data] [mC6]).1.texts 1 = some "tf".data ∧
    pyDictGet (stC6.add [[1]] ["tf".data] [mC6]).1.texts 0 ≠ some "tf".data := by
  decide

/-- C6 witness: the amended assignment rule evaluated on a concrete
add (supplied nonzero id 5 is kept; `next_id` becomes 6). -/
theorem C6_witness :
    (stC6.add [[1]] ["w".data] [mkMeta 3 5]).2 = Except.ok [5] ∧
    ([(5 : Int)] = (assignIdsAmended stC6.next_id ([mkMeta 3 5].map (fun m => m.chunk_id))).1 ∧
     (stC6.add [[1]] ["w".data] [mkMeta 3 5]).1.next_id =
       (assignIdsAmended stC6.next_id ([mkMeta 3 5].map (fun m => m.chunk_id))).2 ∧
     (stC6.add [[1]] ["w".data] [mkMeta 3 5]).1.id_map = stC6.id_map ++ [(5 : Int)]) :=
  ⟨by decide,
   C6_amended stC6 [[1]] ["w".data] [mkMeta 3 5]
     (stC6.add [[1]] ["w".data] [mkMeta 3 5]).1 [(5 : Int)]
     (by decide) (by decide) (by decide)⟩

/-! ### C8 - session update -/

/-- C8 counterexample: (i) with eleven retrieved chunks the session
keeps `chunks[:10]` - the FIRST ten - which differs from the last ten;
(ii) with 22 distinct existing keywords (at most 30, so by the claim
all should survive) and no new ones, the oldest keyword `k0` does not
survive the update: the code first truncates the old list to its last
20 before merging. -/
theorem C8_counterexample :
    ((freshSession 1 0).update "q".data chunks11 [] 1).last_chunks = chunks11.take 10 ∧
    chunks11.take 10 ≠ takeLast 10 chunks11 ∧
    sess22.topic_keywords.length = 22 ∧
    "k0".data ∈ sess22.topic_keywords ∧
    "k0".data ∉ (sess22.update "q".data [] [] 1).topic_keywords := by
  decide

/-- C8 (amended): after `update(query, chunks, keywords)` the session
holds the FIRST 10 of the retrieved chunks, the query is appended to
the history, and the topic keywords are an at-most-30-element
selection drawn only from the last 20 previous keywords and the new
keywords; when those have at most 30 distinct values, exactly their
distinct values survive (so keywords older than the last 20 previous
ones are dropped regardless of the 30 cap). -/
theorem C8_amended (s : SessionContext) (query : List Char)
    (chunks : List PyChunk) (kws : List (List Char)) (now : ℚ) :
    (s.update query chunks kws now).last_chunks = chunks.take 10 ∧
    (s.update query chunks kws now).query_history = s.query_history ++ [query] ∧
    (s.update query chunks kws now).topic_keywords.length ≤ 30 ∧
    (∀ w ∈ (s.update query chunks kws now).topic_keywords,
      w ∈ takeLast 20 s.topic_keywords ∨ w ∈ kws) ∧
    ((takeLast 20 s.topic_keywords ++ kws).dedup.length ≤ 30 →
      ∀ w, w ∈ (s.update query chunks kws now).topic_keywords ↔
        (w ∈ takeLast 20 s.topic_keywords ∨ w ∈ kws)) := by
  refine ⟨rfl, rfl, ?_, ?_, ?_⟩
  · exact takeLast_length_le _ _
  · intro w hw
    have h1 : w ∈ pySetList (takeLast 20 s.topic_keywords ++ kws) :=
      takeLast_subset _ _ hw
    have h2 := (pySetList_mem w _).1 h1
    simpa using h2
  · intro hle w
    have hfull : takeLast 30 (pySetList (takeLast 20 s.topic_keywords ++ kws)) =
        pySetList (takeLast 20 s.topic_keywords ++ kws) := by
      apply takeLast_of_length_le
      rw [pySetList_length]
      exact hle
    show w ∈ takeLast 30 (pySetList (takeLast 20 s.topic_keywords ++ kws)) ↔ _
    rw [hfull, pySetList_mem, List.mem_append]

/-- C8 witness: the amended description evaluated on a concrete
session update (`sess22` has 22 keywords, one new keyword). -/
theorem C8_witness :
    (sess22.update "q".data chunks11 ["new".data] 1).last_chunks = chunks11.take 10 ∧
    (sess22.update "q".data chunks11 ["new".data] 1).query_history = ["q".data] ∧
    ("k2".data ∈ (sess22.update "q".data chunks11 ["new".data] 1).topic_keywords ↔
      ("k2".data ∈ takeLast 20 sess22.topic_keywords ∨ "k2".data ∈ [["n".data.headD 'n', 'e', 'w']])) :=
  ⟨(C8_amended sess22 "q".data chunks11 ["new".data] 1).1,
   (C8_amended sess22 "q".data chunks11 ["new".data] 1).2.1,
   by
     have h := (C8_amended sess22 "q".data chunks11 ["new".data] 1).2.2.2.2
       (by decide) "k2".data
     simpa using h⟩

/-! ### C5 - assembler token budgeting -/

theorem assembleGo_used_extends (maxTok : Nat) :
    ∀ (l : List PyChunk) (parts : List (List Char)) (used : List PyChunk) (cur : Nat),
    ∃ suf, (ContextAssembler.assembleGo maxTok l parts used cur).2.1 = used ++ suf := by
  intro l
  induction l with
  | nil => intro parts used cur; exact ⟨[], by simp [ContextAssembler.assembleGo]⟩
  | cons c rest ih =>
    intro parts used cur
    simp only [ContextAssembler.assembleGo]
    split
    · split
      · exact ⟨[c], rfl⟩
      · exact ⟨[], by simp⟩
    · obtain ⟨suf, hsuf⟩ := ih (parts ++ [ContextAssembler.formatChunk c (used.length + 1)])
        (used ++ [c]) (cur + ContextAssembler.countTokens (ContextAssembler.formatChunk c (used.length + 1)))
      exact ⟨c :: suf, by rw [hsuf]; simp⟩

theorem assembleGo_budget (maxTok : Nat) :
    ∀ (l : List PyChunk) (parts : List (List Char)) (used : List PyChunk) (cur : Nat),
    cur ≤ maxTok →
    (ContextAssembler.assembleGo maxTok l parts used cur).2.2 ≤ maxTok ∨
    ((∃ c ∈ (ContextAssembler.assembleGo maxTok l parts used cur).2.1,
        c.chunk_type = some "table".data) ∧
      mkRat (((ContextAssembler.assembleGo maxTok l parts used cur).2.2 : Nat) : Int) 1 <
        mkRat (11 * (maxTok : Int)) 10) := by
  intro l
  induction l with
  | nil =>
    intro parts used cur hcur
    left
    simpa [ContextAssembler.assembleGo] using hcur
  | cons c rest ih =>
    intro parts used cur hcur
    simp only [ContextAssembler.assembleGo]
    split
    · split
      next htab =>
        right
        exact ⟨⟨c, by simp, htab.1⟩, by simpa using htab.2⟩
      next => left; simpa using hcur
    · next hfit =>
      have hcur' : cur + ContextAssembler.countTokens
          (ContextAssembler.formatChunk c (used.length + 1)) ≤ maxTok := by omega
      rcases ih (parts ++ [ContextAssembler.formatChunk c (used.length + 1)]) (used ++ [c])
        (cur + ContextAssembler.countTokens (ContextAssembler.formatChunk c (used.length + 1)))
        hcur' with h | ⟨⟨c', hc', htype⟩, hbound⟩
      · exact Or.inl h
      · exact Or.inr ⟨⟨c', hc', htype⟩, hbound⟩

theorem assembleGo_prefix (maxTok : Nat) :
    ∀ (l : List PyChunk) (parts : List (List Char)) (used : List PyChunk) (cur : Nat),
    (∃ n, (ContextAssembler.assembleGo maxTok l parts used cur).2.1 = used ++ l.take n) ∨
    (∃ pre c post, l = pre ++ c :: post ∧
      (ContextAssembler.assembleGo maxTok l parts used cur).2.1 = used ++ pre ++ [c] ∧
      c.chunk_type = some "table".data) := by
  intro l
  induction l with
  | nil =>
    intro parts used cur
    exact Or.inl ⟨0, by simp [ContextAssembler.assembleGo]⟩
  | cons c rest ih =>
    intro parts used cur
    simp only [ContextAssembler.assembleGo]
    split
    · split
      next htab => exact Or.inr ⟨[], c, rest, rfl, by simp, htab.1⟩
      next => exact Or.inl ⟨0, by simp⟩
    · rcases ih (parts ++ [ContextAssembler.formatChunk c (used.length + 1)]) (used ++ [c])
        (cur + ContextAssembler.countTokens (ContextAssembler.formatChunk c (used.length + 1)))
        with ⟨n, h⟩ | ⟨pre, c', post, hl, hu, ht⟩
      · refine Or.inl ⟨n + 1, ?_⟩
        rw [h, List.take_succ_cons]
        simp
      · refine Or.inr ⟨c :: pre, c', post, by rw [hl]; simp, ?_, ht⟩
        rw [hu]
        simp

theorem mkRat_slack_iff (a m : Nat) :
    (mkRat ((a : Nat) : Int) 1 < mkRat (11 * (m : Int)) 10) ↔
      ((a : ℚ) < (m : ℚ) * (11/10)) := by
  rw [Rat.mkRat_one, Rat.mkRat_eq_divInt, Rat.divInt_eq_div,
    show (m : ℚ) * (11/10) = 11 * (m : ℚ) / 10 by ring]
  push_cast
  constructor <;> intro h <;> linarith

/-- C5: for every input chunk list (and every configured budget),
`assemble(chunks)` keeps `total_tokens ≤ max_tokens * 1.1`; if no
accepted chunk has `chunk_type = 'table'` then
`total_tokens ≤ max_tokens`; and the accepted chunks are an initial
prefix of the deduplicated-and-sorted list, except that a single
over-budget table chunk within the 10% slack may be accepted as the
final element, after which acceptance halts. -/
theorem C5_token_budget (chunks : List PyChunk) (selfMax : Nat) :
    (((ContextAssembler.assemble selfMax chunks none).total_tokens : ℚ) ≤
      (selfMax : ℚ) * (11/10)) ∧
    ((∀ c ∈ ContextAssembler.assembledUsed selfMax chunks none,
        c.chunk_type ≠ some "table".data) →
      (ContextAssembler.assemble selfMax chunks none).total_tokens ≤ selfMax) ∧
    ((ContextAssembler.assemble selfMax chunks none).chunks_used =
      (ContextAssembler.assembledUsed selfMax chunks none).length) ∧
    ((∃ n, ContextAssembler.assembledUsed selfMax chunks none =
        (ContextAssembler.sortChunks (ContextAssembler.dedupChunks chunks)).take n) ∨
     (∃ pre c post,
        ContextAssembler.sortChunks (ContextAssembler.dedupChunks chunks) = pre ++ c :: post ∧
        ContextAssembler.assembledUsed selfMax chunks none = pre ++ [c] ∧
        c.chunk_type = some "table".data)) := by
  have hm0 : (0 : ℚ) ≤ (selfMax : ℚ) * (11/10) := by positivity
  by_cases hne : chunks = []
  · subst hne
    refine ⟨by simp [ContextAssembler.assemble], ?_, ?_, ?_⟩
    · intro _
      simp [ContextAssembler.assemble]
    · simp [ContextAssembler.assemble, ContextAssembler.assembledUsed]
    · exact Or.inl ⟨0, by simp [ContextAssembler.assembledUsed, ContextAssembler.dedupChunks,
        ContextAssembler.dedupGo, ContextAssembler.sortChunks, stableSort]⟩
  · have htot : (ContextAssembler.assemble selfMax chunks none).total_tokens =
        (ContextAssembler.assembleGo selfMax
          (ContextAssembler.sortChunks (ContextAssembler.dedupChunks chunks)) [] [] 0).2.2 := by
      simp only [ContextAssembler.assemble, if_neg hne]
    have hused : ContextAssembler.assembledUsed selfMax chunks none =
        (ContextAssembler.assembleGo selfMax
          (ContextAssembler.sortChunks (ContextAssembler.dedupChunks chunks)) [] [] 0).2.1 := by
      simp only [ContextAssembler.assembledUsed, if_neg hne]
    have hcu : (ContextAssembler.assemble selfMax chunks none).chunks_used =
        (ContextAssembler.assembleGo selfMax
          (ContextAssembler.sortChunks (ContextAssembler.dedupChunks chunks)) [] [] 0).2.1.length := by
      simp only [ContextAssembler.assemble, if_neg hne]
    refine ⟨?_, ?_, ?_, ?_⟩
    · rw [htot]
      rcases assembleGo_budget selfMax
        (ContextAssembler.sortChunks (ContextAssembler.dedupChunks chunks)) [] [] 0
        (Nat.zero_le _) with h | ⟨_, hb⟩
      · calc ((ContextAssembler.assembleGo selfMax _ [] [] 0).2.2 : ℚ)
            ≤ (selfMax : ℚ) := by exact_mod_cast h
          _ ≤ (selfMax : ℚ) * (11/10) := by nlinarith [Nat.cast_nonneg (α := ℚ) selfMax]
      · exact le_of_lt ((mkRat_slack_iff _ _).1 hb)
    · intro hnotab
      rw [htot]
      rcases assembleGo_budget selfMax
        (ContextAssembler.sortChunks (ContextAssembler.dedupChunks chunks)) [] [] 0
        (Nat.zero_le _) with h | ⟨⟨c, hc, htype⟩, _⟩
      · exact h
      · exact absurd htype (hnotab c (by rwa [hused]))
    · rw [hcu, hused]
    · rw [hused]
      rcases assembleGo_prefix selfMax
        (ContextAssembler.sortChunks (ContextAssembler.dedupChunks chunks)) [] [] 0
        with ⟨n, h⟩ | ⟨pre, c, post, hl, hu, ht⟩
      · exact Or.inl ⟨n, by simpa using h⟩
      · exact Or.inr ⟨pre, c, post, hl, by simpa using hu, ht⟩

/-- C5 witness: the bound evaluated on a concrete chunk list and
budget 10, discharging the no-table hypothesis. -/
theorem C5_witness :
    (ContextAssembler.assemble 10 exC5 none).total_tokens ≤ 10 :=
  (C5_token_budget exC5 10).2.1 (by decide)

/-! ### C2 - search shape, filters and candidate pool -/

theorem stableInsert_mem {α : Type} (lt : α → α → Bool) (x : α) :
    ∀ (l : List α) (a : α), a ∈ stableInsert lt x l ↔ a = x ∨ a ∈ l := by
  intro l
  induction l with
  | nil => intro a; simp [stableInsert]
  | cons y ys ih =>
    intro a
    simp only [stableInsert]
    split
    · simp only [List.mem_cons]
    · simp only [List.mem_cons, ih]
      tauto

theorem stableInsert_scorePairwise (x : Nat × ℚ) :
    ∀ (l : List (Nat × ℚ)),
    List.Pairwise (fun a b : Nat × ℚ => b.2 ≤ a.2) l →
    List.Pairwise (fun a b : Nat × ℚ => b.2 ≤ a.2)
      (stableInsert (fun a b => decide (b.2 < a.2)) x l) := by
  intro l
  induction l with
  | nil => intro _; simp [stableInsert]
  | cons y ys ih =>
    intro h
    simp only [stableInsert]
    split
    next hlt =>
      have hyx : y.2 < x.2 := of_decide_eq_true hlt
      refine List.Pairwise.cons ?_ h
      intro z hz
      rcases List.mem_cons.1 hz with rfl | hz'
      · exact le_of_lt hyx
      · exact le_trans (List.rel_of_pairwise_cons h hz') (le_of_lt hyx)
    next hlt =>
      have hxy : x.2 ≤ y.2 := le_of_not_lt (by simpa using hlt)
      refine List.Pairwise.cons ?_ (ih (List.Pairwise.sublist (List.sublist_cons_self y ys) h))
      intro z hz
      rcases (stableInsert_mem _ x ys z).1 hz with rfl | hz'
      · exact hxy
      · exact List.rel_of_pairwise_cons h hz'

theorem stableSort_scoreFold_pairwise :
    ∀ (xs : List (Nat × ℚ)) (acc : List (Nat × ℚ)),
    List.Pairwise (fun a b : Nat × ℚ => b.2 ≤ a.2) acc →
    List.Pairwise (fun a b : Nat × ℚ => b.2 ≤ a.2)
      (xs.foldl (fun acc x => stableInsert (fun a b => decide (b.2 < a.2)) x acc) acc) := by
  intro xs
  induction xs with
  | nil => intro acc h; exact h
  | cons x rest ih =>
    intro acc h
    exact ih _ (stableInsert_scorePairwise x acc h)

theorem stableSort_scorePairwise (l : List (Nat × ℚ)) :
    List.Pairwise (fun a b : Nat × ℚ => b.2 ≤ a.2)
      (stableSort (fun a b => decide (b.2 < a.2)) l) :=
  stableSort_scoreFold_pairwise l [] (by simp)

theorem stableInsert_length {α : Type} (lt : α → α → Bool) (x : α) :
    ∀ l : List α, (stableInsert lt x l).length = l.length + 1 := by
  intro l
  induction l with
  | nil => rfl
  | cons y ys ih =>
    simp only [stableInsert]
    split
    · rfl
    · simp [ih]

theorem stableSort_fold_length {α : Type} (lt : α → α → Bool) :
    ∀ (xs acc : List α),
    (xs.foldl (fun acc x => stableInsert lt x acc) acc).length = acc.length + xs.length := by
  intro xs
  induction xs with
  | nil => intro acc; simp
  | cons x rest ih =>
    intro acc
    simp only [List.foldl_cons, List.length_cons]
    rw [ih, stableInsert_length]
    omega

theorem stableSort_length {α : Type} (lt : α → α → Bool) (l : List α) :
    (stableSort lt l).length = l.length := by
  simp [stableSort, stableSort_fold_length]

theorem stableSort_fold_mem {α : Type} (lt : α → α → Bool) :
    ∀ (xs acc : List α) (a : α),
    a ∈ xs.foldl (fun acc x => stableInsert lt x acc) acc ↔ a ∈ acc ∨ a ∈ xs := by
  intro xs
  induction xs with
  | nil => intro acc a; simp
  | cons x rest ih =>
    intro acc a
    simp only [List.foldl_cons, ih, stableInsert_mem, List.mem_cons]
    tauto

theorem stableSort_mem {α : Type} (lt : α → α → Bool) (l : List α) (a : α) :
    a ∈ stableSort lt l ↔ a ∈ l := by
  simp [stableSort, stableSort_fold_mem]

theorem take_min_length {α : Type} (l : List α) (n : Nat) :
    l.take (min n l.length) = l.take n := by
  rcases le_total n l.length with h | h
  · rw [Nat.min_eq_left h]
  · rw [Nat.min_eq_right h, List.take_length, List.take_of_length_le h]

theorem faissTopPairs_scorePairwise (vecs : List (List ℚ)) (q : List ℚ) (k : Nat) :
    List.Pairwise (fun a b : Nat × ℚ => b.2 ≤ a.2) (faissTopPairs vecs q k) :=
  List.Pairwise.sublist (List.take_sublist _ _) (stableSort_scorePairwise _)

theorem faissTopPairs_idx_lt (vecs : List (List ℚ)) (q : List ℚ) (k : Nat)
    (p : Nat × ℚ) (hp : p ∈ faissTopPairs vecs q k) : p.1 < vecs.length := by
  have h1 : p ∈ stableSort (fun a b => decide (b.2 < a.2)) ((vecs.map (dotQ q)).enum) :=
    List.take_subset _ _ hp
  have h2 : p ∈ (vecs.map (dotQ q)).enum := (stableSort_mem _ _ _).1 h1
  obtain ⟨i, x⟩ := p
  rw [List.mk_mem_enum_iff_getElem?] at h2
  have := List.getElem?_eq_some.1 h2
  simpa using this.1

theorem searchGo_characterization (s : FAISSVectorStore) (k : Nat) (dl : List Int) (m : ℚ) :
    ∀ (cands : List (Nat × ℚ)) (acc : List SearchResult),
    (∀ p ∈ cands, p.1 < s.id_map.length ∧
      (pyDictGet s.metadata (s.id_map.getD p.1 0)).isSome) →
    acc.length < k →
    searchGo s k dl m cands acc =
      acc.reverse ++ (((cands.map (specResult s)).filter
        (fun r => decide (m ≤ r.score) && (dl.isEmpty || decide (r.doc_id ∈ dl)))).take
          (k - acc.length)) := by
  intro cands
  induction cands with
  | nil =>
    intro acc _ _
    simp [searchGo]
  | cons p rest ih =>
    intro acc hwf hacc
    obtain ⟨idx, score⟩ := p
    obtain ⟨hidx, hsome⟩ := hwf (idx, score) (List.mem_cons_self _ _)
    obtain ⟨md, hmd⟩ := Option.isSome_iff_exists.1 hsome
    have hwf' : ∀ p ∈ rest, p.1 < s.id_map.length ∧
        (pyDictGet s.metadata (s.id_map.getD p.1 0)).isSome :=
      fun p hp => hwf p (List.mem_cons_of_mem _ hp)
    have hmd2 : pyDictGet s.metadata (s.id_map[idx]?.getD 0) = some md := by
      simpa [List.getD] using hmd
    have hspec : specResult s (idx, score) =
        SearchResult.mk (s.id_map.getD idx 0) md.doc_id score
          ((pyDictGet s.texts (s.id_map.getD idx 0)).getD []) md := by
      simp [specResult, List.getD, hmd2]
    simp only [searchGo, if_pos hidx, hmd]
    by_cases hlow : score < m
    · have hfilter : (decide (m ≤ (specResult s (idx, score)).score) &&
          (dl.isEmpty || decide ((specResult s (idx, score)).doc_id ∈ dl))) = false := by
        rw [hspec]
        simp only [decide_eq_false_iff_not, Bool.and_eq_false_iff]
        left
        simpa using not_le.2 hlow
      rw [if_pos hlow]
      rw [ih acc hwf' hacc, List.map_cons, List.filter_cons_of_neg (by simpa using hfilter)]
    · rw [if_neg hlow]
      by_cases hdoc : dl ≠ [] ∧ md.doc_id ∉ dl
      · have hfilter : (decide (m ≤ (specResult s (idx, score)).score) &&
            (dl.isEmpty || decide ((specResult s (idx, score)).doc_id ∈ dl))) = false := by
          rw [hspec]
          simp only [Bool.and_eq_false_iff, Bool.or_eq_false_iff]
          right
          constructor
          · simpa [List.isEmpty_iff] using hdoc.1
          · simpa using hdoc.2
        rw [if_pos hdoc]
        rw [ih acc hwf' hacc, List.map_cons, List.filter_cons_of_neg (by simpa using hfilter)]
      · have hfilter : (decide (m ≤ (specResult s (idx, score)).score) &&
            (dl.isEmpty || decide ((specResult s (idx, score)).doc_id ∈ dl))) = true := by
          rw [hspec]
          simp only [Bool.and_eq_true, Bool.or_eq_true, decide_eq_true_eq]
          refine ⟨le_of_not_lt hlow, ?_⟩
          by_cases hdl : dl = []
          · exact Or.inl (by simp [hdl])
          · right
            rcases not_and_or.1 hdoc with h | h
            · exact absurd hdl (by simpa using h)
            · simpa using h
        rw [if_neg hdoc]
        rw [List.map_cons, List.filter_cons_of_pos (by simpa using hfilter)]
        by_cases hbreak : k ≤ (SearchResult.mk (s.id_map.getD idx 0) md.doc_id score
            ((pyDictGet s.texts (s.id_map.getD idx 0)).getD []) md :: acc).length
        · rw [if_pos hbreak]
          have hk : k = acc.length + 1 := by
            simp only [List.length_cons] at hbreak
            omega
          rw [hspec, hk]
          simp [List.reverse_cons]
        · rw [if_neg hbreak]
          have hacc' : (SearchResult.mk (s.id_map.getD idx 0) md.doc_id score
              ((pyDictGet s.texts (s.id_map.getD idx 0)).getD []) md :: acc).length < k := by
            simp only [List.length_cons] at hbreak ⊢
            omega
          rw [ih _ hwf' hacc']
          have hkk : k - acc.length = (k - (acc.length + 1)) + 1 := by
            simp only [List.length_cons] at hbreak
            omega
          rw [hspec, hkk, List.take_succ_cons]
          simp [List.reverse_cons]

theorem faissTopPairs_min_ntotal (vecs : List (List ℚ)) (q : List ℚ) (n : Nat) :
    faissTopPairs vecs q (min n vecs.length) = faissTopPairs vecs q n := by
  unfold faissTopPairs
  have hlen : (stableSort (fun a b => decide (b.2 < a.2)) ((vecs.map (dotQ q)).enum)).length =
      vecs.length := by
    rw [stableSort_length, List.enum_length, List.length_map]
  rw [← hlen, take_min_length]

/-- Refinement of the loop in `search` against the spec's description
(`searchPerSpec`), for well-formed stores: every slot of the FAISS
index has an id in the slot map and every mapped id has metadata. -/
theorem search_eq_searchPerSpec (s : FAISSVectorStore) (q : List ℚ) (k : Nat)
    (docIds : Option (List Int)) (minScore : ℚ)
    (hwf1 : s.id_map.length = s.ntotal)
    (hwf2 : ∀ cid ∈ s.id_map, (pyDictGet s.metadata cid).isSome) :
    s.search q k docIds minScore = s.searchPerSpec q k docIds minScore := by
  have hvl : s.vecs.length = s.ntotal := rfl
  simp only [FAISSVectorStore.search, FAISSVectorStore.searchPerSpec]
  by_cases hz : s.ntotal = 0
  · rw [if_pos hz]
    have hv : s.vecs = [] := List.length_eq_zero.1 (hvl.trans hz)
    simp [hv, faissTopPairs, stableSort]
  · rw [if_neg hz]
    have hkp : (if docIds.getD [] ≠ [] then k * 3 else k) =
        (if docIds.getD [] ≠ [] then 3 * k else k) := by
      split <;> [exact Nat.mul_comm k 3; rfl]
    rw [hkp, ← hvl, faissTopPairs_min_ntotal]
    by_cases hk : k = 0
    · subst hk
      have h0 : (if docIds.getD [] ≠ [] then 3 * 0 else 0) = 0 := by split <;> rfl
      rw [h0]
      simp [faissTopPairs, searchGo]
    · rw [searchGo_characterization s k (docIds.getD []) minScore _ []
        ?_ (by simpa using Nat.pos_of_ne_zero hk)]
      · simp
      · intro p hp
        have hlt : p.1 < s.vecs.length := faissTopPairs_idx_lt _ _ _ p hp
        rw [hvl, ← hwf1] at hlt
        refine ⟨hlt, ?_⟩
        apply hwf2
        have : s.id_map.getD p.1 0 = s.id_map[p.1] := List.getD_eq_getElem s.id_map 0 hlt
        rw [this]
        exact List.getElem_mem hlt

/-- C2 (amended): for every well-formed store, every query, `k`,
`doc_ids` and `min_score`: `search` returns at most `k` results with
monotonically non-increasing scores, every result has
`score ≥ min_score`, and when a NON-EMPTY document filter is given
every result's `doc_id` lies in it; moreover `search` coincides with
the spec's candidate-pool description (`searchPerSpec`): the pool is
the top `3k` by score when a non-empty filter is supplied, else the
top `k`, then filtered and truncated to `k`.  (An empty-list filter is
falsy in Python and behaves as no filter; see `C2_counterexample`.) -/
theorem C2_search_contract (s : FAISSVectorStore) (q : List ℚ) (k : Nat)
    (docIds : Option (List Int)) (minScore : ℚ)
    (hwf1 : s.id_map.length = s.ntotal)
    (hwf2 : ∀ cid ∈ s.id_map, (pyDictGet s.metadata cid).isSome) :
    (s.search q k docIds minScore).length ≤ k ∧
    List.Pairwise (fun a b : SearchResult => b.score ≤ a.score)
      (s.search q k docIds minScore) ∧
    (∀ r ∈ s.search q k docIds minScore,
      minScore ≤ r.score ∧ (docIds.getD [] ≠ [] → r.doc_id ∈ docIds.getD [])) ∧
    s.search q k docIds minScore = s.searchPerSpec q k docIds minScore := by
  have heq := search_eq_searchPerSpec s q k docIds minScore hwf1 hwf2
  refine ⟨?_, ?_, ?_, heq⟩
  · rw [heq]
    simp only [FAISSVectorStore.searchPerSpec]
    exact List.length_take_le _ _
  · rw [heq]
    simp only [FAISSVectorStore.searchPerSpec]
    refine List.Pairwise.sublist (List.take_sublist _ _)
      (List.Pairwise.sublist (List.filter_sublist _) ?_)
    rw [List.pairwise_map]
    have := faissTopPairs_scorePairwise s.vecs q
      (if docIds.getD [] ≠ [] then 3 * k else k)
    exact this.imp (fun h => h)
  · intro r hr
    rw [heq] at hr
    simp only [FAISSVectorStore.searchPerSpec] at hr
    have hr2 := List.mem_filter.1 (List.take_subset _ _ hr)
    have hb := hr2.2
    simp only [Bool.and_eq_true, Bool.or_eq_true, decide_eq_true_eq] at hb
    refine ⟨hb.1, ?_⟩
    intro hne
    rcases hb.2 with h | h
    · exact absurd (List.isEmpty_iff.1 h) hne
    · exact h

/-- C2 counterexample: with a one-vector store (doc 7), calling
`search` with the explicitly supplied document filter `doc_ids = []`
returns a result whose `doc_id` is not in the filter, and the
candidate pool multiplier is `k`, not `3k`: an empty list is falsy in
Python, so the supplied filter is ignored. -/
theorem C2_counterexample :
    (stC2.search [1, 0] 1 (some []) 0).map (fun r => r.doc_id) = [7] ∧
    (7 : Int) ∉ ([] : List Int) ∧
    (if (some ([] : List Int)).getD [] ≠ [] then 1 * 3 else 1) = 1 := by
  decide

/-- C2 witness: the contract evaluated on a concrete three-vector
store with the non-empty filter `[8]`, `k = 2`. -/
theorem C2_witness :
    stC2W.id_map.length = stC2W.ntotal ∧
    (∀ cid ∈ stC2W.id_map, (pyDictGet stC2W.metadata cid).isSome) ∧
    (stC2W.search [1, 0] 2 (some [8]) 0).length ≤ 2 ∧
    stC2W.search [1, 0] 2 (some [8]) 0 = stC2W.searchPerSpec [1, 0] 2 (some [8]) 0 :=
  ⟨by decide, by decide,
   (C2_search_contract stC2W [1, 0] 2 (some [8]) 0 (by decide) (by decide)).1,
   (C2_search_contract stC2W [1, 0] 2 (some [8]) 0 (by decide) (by decide)).2.2.2⟩

/-! ### C10 - saving an empty store never touches the disk -/

theorem pyDictGet_cons {α : Type} (p : Int × α) (rest : List (Int × α)) (k : Int) :
    pyDictGet (p :: rest) k = if p.1 = k then some p.2 else pyDictGet rest k := by
  simp only [pyDictGet, List.find?]
  by_cases h : p.1 = k
  · simp [h]
  · simp [h]

theorem pyDictGet_insert_self {α : Type} (k : Int) (v : α) :
    ∀ d : List (Int × α), pyDictGet (pyDictInsert d k v) k = some v := by
  intro d
  induction d with
  | nil => simp [pyDictInsert, pyDictGet_cons]
  | cons p rest ih =>
    simp only [pyDictInsert]
    split
    · simp [pyDictGet_cons]
    · next hne => rw [pyDictGet_cons, if_neg hne, ih]

theorem pyDictGet_insert_ne {α : Type} (k k' : Int) (v : α) (hne : k' ≠ k) :
    ∀ d : List (Int × α), pyDictGet (pyDictInsert d k v) k' = pyDictGet d k' := by
  have hkk : ¬ (k = k') := fun h => hne h.symm
  intro d
  induction d with
  | nil => simp [pyDictInsert, pyDictGet_cons, hkk, pyDictGet]
  | cons p rest ih =>
    simp only [pyDictInsert]
    split
    · next heq =>
      rw [pyDictGet_cons, pyDictGet_cons, if_neg hkk, if_neg (heq ▸ hkk)]
    · rw [pyDictGet_cons, pyDictGet_cons, ih]

theorem pyDictGet_none_iff {α : Type} (k : Int) :
    ∀ d : List (Int × α), pyDictGet d k = none ↔ k ∉ d.map Prod.fst := by
  intro d
  induction d with
  | nil => simp [pyDictGet]
  | cons p rest ih =>
    rw [pyDictGet_cons]
    by_cases h : p.1 = k
    · simp [h]
    · simp only [if_neg h, ih, List.map_cons, List.mem_cons]
      constructor
      · intro hk
        push_neg
        exact ⟨fun he => h he.symm, hk⟩
      · intro hk
        push_neg at hk
        exact hk.2

theorem pyDictGet_isSome_iff {α : Type} (k : Int) (d : List (Int × α)) :
    (pyDictGet d k).isSome ↔ k ∈ d.map Prod.fst := by
  rw [← not_iff_not, Option.not_isSome_iff_eq_none, pyDictGet_none_iff]

theorem pyDictGet_mem {α : Type} (k : Int) (v : α) :
    ∀ d : List (Int × α), pyDictGet d k = some v → (k, v) ∈ d := by
  intro d
  induction d with
  | nil => simp [pyDictGet]
  | cons p rest ih =>
    rw [pyDictGet_cons]
    by_cases h : p.1 = k
    · rw [if_pos h]
      intro hv
      injection hv with hv
      refine List.mem_cons.2 (Or.inl ?_)
      obtain ⟨a, b⟩ := p
      simp only at h hv
      rw [h, hv]
    · rw [if_neg h]
      intro hv
      exact List.mem_cons_of_mem _ (ih hv)

theorem mem_pyDictGet {α : Type} (k : Int) (v : α) :
    ∀ d : List (Int × α), (d.map Prod.fst).Nodup → (k, v) ∈ d →
    pyDictGet d k = some v := by
  intro d
  induction d with
  | nil => simp
  | cons p rest ih =>
    intro hnd hmem
    have hnd' : (rest.map Prod.fst).Nodup := (List.nodup_cons.1 hnd).2
    rcases List.mem_cons.1 hmem with rfl | hmem'
    · simp [pyDictGet_cons]
    · have hk : k ∈ rest.map Prod.fst :=
        List.mem_map.2 ⟨(k, v), hmem', rfl⟩
      have hpk : ¬ p.1 = k := by
        intro heq
        exact (List.nodup_cons.1 hnd).1 (heq ▸ hk)
      rw [pyDictGet_cons, if_neg hpk]
      exact ih hnd' hmem'

theorem pyDictGet_unique {α : Type} (k : Int) (a b : α) (d : List (Int × α))
    (hnd : (d.map Prod.fst).Nodup) (ha : (k, a) ∈ d) (hb : (k, b) ∈ d) : a = b := by
  have h1 := mem_pyDictGet k a d hnd ha
  have h2 := mem_pyDictGet k b d hnd hb
  rw [h1] at h2
  exact Option.some.inj h2

theorem pyDictInsert_mem_cases {α : Type} (k : Int) (v : α) (q : Int × α) :
    ∀ d : List (Int × α), q ∈ pyDictInsert d k v → q = (k, v) ∨ q ∈ d := by
  intro d
  induction d with
  | nil => simp [pyDictInsert]
  | cons p rest ih =>
    simp only [pyDictInsert]
    split
    · intro h
      rcases List.mem_cons.1 h with h1 | h1
      · exact Or.inl h1
      · exact Or.inr (List.mem_cons_of_mem _ h1)
    · intro h
      rcases List.mem_cons.1 h with h1 | h1
      · exact Or.inr (h1 ▸ List.mem_cons_self _ _)
      · rcases ih h1 with h2 | h2
        · exact Or.inl h2
        · exact Or.inr (List.mem_cons_of_mem _ h2)

theorem pyDictInsert_keys {α : Type} (k : Int) (v : α) :
    ∀ d : List (Int × α),
    (pyDictInsert d k v).map Prod.fst =
      if k ∈ d.map Prod.fst then d.map Prod.fst else d.map Prod.fst ++ [k] := by
  intro d
  induction d with
  | nil => simp [pyDictInsert]
  | cons p rest ih =>
    simp only [pyDictInsert]
    split
    · next heq => simp [heq]
    · next hne =>
      simp only [List.map_cons, ih]
      by_cases hk : k ∈ rest.map Prod.fst
      · rw [if_pos hk, if_pos (List.mem_cons_of_mem _ hk)]
      · rw [if_neg hk, if_neg ?_]
        · simp
        · simp only [List.mem_cons]
          push_neg
          exact ⟨fun h => hne h.symm, hk⟩

theorem pyDictInsert_keys_nodup {α : Type} (k : Int) (v : α) (d : List (Int × α))
    (hnd : (d.map Prod.fst).Nodup) : ((pyDictInsert d k v).map Prod.fst).Nodup := by
  rw [pyDictInsert_keys]
  split
  · exact hnd
  · next hk =>
    rw [List.nodup_append]
    exact ⟨hnd, List.nodup_singleton k, by simpa [List.disjoint_left] using hk⟩

theorem rebuild_fold_invariant (s : FAISSVectorStore) (keepIds : List Int)
    (hkeep : ∀ cid ∈ keepIds, (pyDictGet s.metadata cid).isSome) :
    ∀ (pairs : List (Int × List ℚ))
      (acc : List (List ℚ) × List (Int × List Char) × List (Int × ChunkMetadata) × List Int),
    acc.1.length = acc.2.2.2.length →
    (∀ cid ∈ acc.2.2.2, (pyDictGet acc.2.2.1 cid).isSome) →
    ((acc.2.2.1.map Prod.fst).Nodup) →
    (∀ p ∈ acc.2.2.1, p.1 ∈ keepIds ∧ pyDictGet s.metadata p.1 = some p.2) →
    ((pairs.foldl (rebuildStep s keepIds) acc).1.length =
        (pairs.foldl (rebuildStep s keepIds) acc).2.2.2.length ∧
      (∀ cid ∈ (pairs.foldl (rebuildStep s keepIds) acc).2.2.2,
        (pyDictGet (pairs.foldl (rebuildStep s keepIds) acc).2.2.1 cid).isSome) ∧
      (((pairs.foldl (rebuildStep s keepIds) acc).2.2.1.map Prod.fst).Nodup) ∧
      (∀ p ∈ (pairs.foldl (rebuildStep s keepIds) acc).2.2.1,
        p.1 ∈ keepIds ∧ pyDictGet s.metadata p.1 = some p.2)) := by
  intro pairs
  induction pairs with
  | nil => intro acc hA hB hC hD; exact ⟨hA, hB, hC, hD⟩
  | cons q rest ih =>
    intro acc hA hB hC hD
    simp only [List.foldl_cons]
    by_cases hq : q.1 ∈ keepIds
    · obtain ⟨m, hm⟩ := Option.isSome_iff_exists.1 (hkeep q.1 hq)
      have hstep : rebuildStep s keepIds acc q =
          (acc.1 ++ [q.2],
           pyDictInsert acc.2.1 q.1 ((pyDictGet s.texts q.1).getD []),
           pyDictInsert acc.2.2.1 q.1 m,
           acc.2.2.2 ++ [q.1]) := by
        simp [rebuildStep, if_pos hq, hm]
      rw [hstep]
      refine ih _ ?_ ?_ ?_ ?_
      · simp only [List.length_append, List.length_cons, List.length_nil]
        omega
      · intro cid hcid
        rcases List.mem_append.1 hcid with h1 | h1
        · by_cases hce : cid = q.1
          · subst hce
            simp [pyDictGet_insert_self]
          · rw [pyDictGet_insert_ne _ _ _ hce]
            exact hB cid h1
        · rcases List.mem_singleton.1 h1 with rfl
          simp [pyDictGet_insert_self]
      · exact pyDictInsert_keys_nodup _ _ _ hC
      · intro p hp
        rcases pyDictInsert_mem_cases _ _ _ _ hp with rfl | hp'
        · exact ⟨hq, hm⟩
        · exact hD p hp'
    · have hstep : rebuildStep s keepIds acc q = acc := by
        simp [rebuildStep, if_neg hq]
      rw [hstep]
      exact ih acc hA hB hC hD

theorem deleteByDocId_preserved (s : FAISSVectorStore) (d : Int) (hwf : storeWF s) :
    storeWF (s.deleteByDocId d) ∧
    (s.ntotal = 0 → s.deleteByDocId d = s) ∧
    (s.ntotal ≠ 0 → ∀ p ∈ (s.deleteByDocId d).metadata,
      p.2.doc_id ≠ d ∧ p ∈ s.metadata) := by
  obtain ⟨hwf1, hwf2, hwf3⟩ := hwf
  by_cases hz : s.ntotal = 0
  · have : s.deleteByDocId d = s := by
      simp [FAISSVectorStore.deleteByDocId, hz]
    rw [this]
    exact ⟨⟨hwf1, hwf2, hwf3⟩, fun _ => rfl, fun h => absurd hz h⟩
  · simp only [FAISSVectorStore.deleteByDocId, if_neg hz]
    split
    · next hlen =>
      refine ⟨⟨hwf1, hwf2, hwf3⟩, fun h => absurd h hz, fun _ p hp => ⟨?_, hp⟩⟩
      have hall : ∀ p ∈ s.metadata, (fun p => decide (p.2.doc_id ≠ d)) p = true := by
        apply List.filter_length_eq_length.1
        simpa using hlen
      simpa using hall p hp
    · next hlen =>
      have hkeep : ∀ cid ∈ (s.metadata.filter (fun p => decide (p.2.doc_id ≠ d))).map Prod.fst,
          (pyDictGet s.metadata cid).isSome := by
        intro cid hcid
        obtain ⟨q, hq, rfl⟩ := List.mem_map.1 hcid
        rw [pyDictGet_isSome_iff]
        exact List.mem_map.2 ⟨q, List.mem_of_mem_filter hq, rfl⟩
      have hinv := rebuild_fold_invariant s _ hkeep (s.id_map.zip s.vecs)
        ([], [], [], []) (by simp) (by simp) (by simp) (by simp)
      obtain ⟨hA, hB, hC, hD⟩ := hinv
      refine ⟨⟨?_, ?_, ?_⟩, fun h => absurd h hz, fun _ p hp => ?_⟩
      · simp only [rebuildIndex, FAISSVectorStore.ntotal]
        simpa using hA.symm
      · exact hB
      · exact hC
      · have hp' := hD p hp
        obtain ⟨hkeepmem, hget⟩ := hp'
        obtain ⟨q, hqf, hq1⟩ := List.mem_map.1 hkeepmem
        have hqmem : q ∈ s.metadata := List.mem_of_mem_filter hqf
        have hqd : q.2.doc_id ≠ d := by
          have := List.of_mem_filter hqf
          simpa using this
        have hpmem : (p.1, p.2) ∈ s.metadata := pyDictGet_mem _ _ _ hget
        have hqget : pyDictGet s.metadata q.1 = some q.2 :=
          mem_pyDictGet _ _ _ hwf3 hqmem
        have : q.2 = p.2 := by
          rw [hq1] at hqget
          rw [hget] at hqget
          exact (Option.some.inj hqget).symm
        refine ⟨this ▸ hqd, ?_⟩
        simpa using hpmem

theorem fold_delete_of_empty :
    ∀ (docs : List Int) (s : FAISSVectorStore), s.ntotal = 0 →
    docs.foldl (fun st d => st.deleteByDocId d) s = s := by
  intro docs
  induction docs with
  | nil => intro s _; rfl
  | cons d ds ih =>
    intro s hz
    have hdel : s.deleteByDocId d = s := by
      simp [FAISSVectorStore.deleteByDocId, hz]
    simp only [List.foldl_cons, hdel]
    exact ih s hz

/-- C10: (i) when the in-memory index is empty (never created, or zero
stored vectors), `save()` returns without writing and both persisted
files keep their previous contents; (ii) in particular, for any
well-formed store, deleting every remaining document via
`delete_by_doc_id` and then calling `save()` leaves the pre-deletion
state on disk, whatever it was. -/
theorem C10_empty_save_noop :
    (∀ (s : FAISSVectorStore) (disk : Option StoreDisk), s.ntotal = 0 →
      s.save disk = disk) ∧
    (∀ (docs : List Int) (s : FAISSVectorStore) (disk : Option StoreDisk),
      storeWF s → (∀ p ∈ s.metadata, p.2.doc_id ∈ docs) →
      (docs.foldl (fun st d => st.deleteByDocId d) s).save disk = disk) := by
  have hsave : ∀ (s : FAISSVectorStore) (disk : Option StoreDisk), s.ntotal = 0 →
      s.save disk = disk := by
    intro s disk hz
    simp [FAISSVectorStore.save, hz]
  refine ⟨hsave, ?_⟩
  intro docs
  induction docs with
  | nil =>
    intro s disk hwf hcov
    have hmeta : s.metadata = [] := by
      rw [List.eq_nil_iff_forall_not_mem]
      intro p hp
      simpa using hcov p hp
    have hid : s.id_map = [] := by
      rw [List.eq_nil_iff_forall_not_mem]
      intro cid hcid
      have := hwf.2.1 cid hcid
      rw [hmeta] at this
      simp [pyDictGet] at this
    apply hsave
    simp only [List.foldl_nil]
    rw [← hwf.1, hid]
    rfl
  | cons d ds ih =>
    intro s disk hwf hcov
    simp only [List.foldl_cons]
    by_cases hz : s.ntotal = 0
    · have hdel : s.deleteByDocId d = s := (deleteByDocId_preserved s d hwf).2.1 hz
      rw [hdel, fold_delete_of_empty ds s hz]
      exact hsave s disk hz
    · obtain ⟨hwf', _, hdocs⟩ := deleteByDocId_preserved s d hwf
      refine ih (s.deleteByDocId d) disk hwf' ?_
      intro p hp
      obtain ⟨hne, hmem⟩ := hdocs hz p hp
      have := hcov p hmem
      rcases List.mem_cons.1 this with h | h
      · exact absurd h hne
      · exact h

/-- C10 witness: evaluated on a concrete two-document store and a
concrete disk snapshot, plus the plain empty-store case. -/
theorem C10_witness :
    storeWF stC10 ∧ (∀ p ∈ stC10.metadata, p.2.doc_id ∈ [(1 : Int), 2]) ∧
    (([(1 : Int), 2].foldl (fun st d => st.deleteByDocId d) stC10).save diskC4 = diskC4) ∧
    (emptyStore 5).save diskC4 = diskC4 :=
  ⟨⟨by decide, by decide, by decide⟩, by decide,
   C10_empty_save_noop.2 [(1 : Int), 2] stC10 diskC4 ⟨by decide, by decide, by decide⟩ (by decide),
   C10_empty_save_noop.1 (emptyStore 5) diskC4 (by decide)⟩
